import Mathlib

/-!
Verification of the steganographic codec layer of the steg-ui repository
(src/lib/steganography.ts and src/lib/dct.ts).

Modelling conventions:
* A JS string is modelled as a `List Nat` of its UTF-16 code units.
* A binary message string (characters `0`/`1`) is modelled as a `List Bool`
  (`true` for `1`).
* A pixel buffer (`Uint8ClampedArray`) is modelled as a `List Nat`; reads use
  `List.getD _ 0` and writes use `List.set` (out-of-range writes are dropped,
  as on a typed array).
* Real-valued DCT arithmetic is modelled over `ℝ` (exact-real idealisation of
  the JS float computation).
-/

/-- `charCode.toString(2)` digits, least significant first, with explicit
fuel (the fuel only needs to dominate the value, see `natBitsLE`). -/
def natBitsLEAux : Nat → Nat → List Bool
  | _, 0 => []
  | 0, _ + 1 => []
  | fuel + 1, n + 1 => (((n + 1) % 2) = 1) :: natBitsLEAux fuel ((n + 1) / 2)

/-- `charCode.toString(2)` digits for one code unit, least significant first.
Empty for 0; the caller handles the `"0"` case. -/
def natBitsLE (n : Nat) : List Bool := natBitsLEAux n n

/-- `charCode.toString(2)`: most-significant-bit-first binary digits, `"0"` for 0. -/
def natToBinDigits (n : Nat) : List Bool :=
  if n = 0 then [false] else (natBitsLE n).reverse

/-- `String.prototype.padStart(k, "0")`: left-pad with `false`, never truncates. -/
def leftPad (k : Nat) (l : List Bool) : List Bool :=
  List.replicate (k - l.length) false ++ l

/-- Bits contributed by one character in `textToBinary`:
`charCode.toString(2).padStart(8, "0")`. -/
def jsCharBits (n : Nat) : List Bool :=
  leftPad 8 (natToBinDigits n)

/-- `textToBinary` (steganography.ts): concatenates each character's bits. -/
def textToBinary (text : List Nat) : List Bool :=
  text.flatMap jsCharBits

/-- `Number.parseInt(byte, 2)` on a big-endian binary digit string. -/
def bitsToNat (l : List Bool) : Nat :=
  l.foldl (fun a b => 2 * a + (bif b then 1 else 0)) 0

/-- `binaryToText` (steganography.ts): consume 8 bits at a time, drop an
incomplete trailing group. -/
def binaryToText : List Bool → List Nat
  | b0 :: b1 :: b2 :: b3 :: b4 :: b5 :: b6 :: b7 :: rest =>
      bitsToNat [b0, b1, b2, b3, b4, b5, b6, b7] :: binaryToText rest
  | _ => []

/-- The code units of the terminator marker `"§END§"`. -/
def terminator : List Nat := [167, 69, 78, 68, 167]

/-- `String.prototype.indexOf`: index of the first occurrence of `pat` in
`txt`, `none` when absent (JS returns `-1`). -/
def jsIndexOf (pat : List Nat) : List Nat → Option Nat
  | [] => if pat.isPrefixOf [] then some 0 else none
  | c :: t =>
    if pat.isPrefixOf (c :: t) then some 0
    else (jsIndexOf pat t).map (· + 1)

/-- `pat` occurs in `txt` starting at position `i`. -/
def occursAt (pat txt : List Nat) (i : Nat) : Prop :=
  (txt.drop i).take pat.length = pat

instance (pat txt : List Nat) (i : Nat) : Decidable (occursAt pat txt i) := by
  unfold occursAt; infer_instance

/-- Tail of `processDecoding` (steganography.ts): rebuild text from the
extracted bits, truncate at the first occurrence of the terminator, or return
the full text when the terminator is absent. -/
def processDecodingBits (bits : List Bool) : List Nat :=
  let fullMessage := binaryToText bits
  match jsIndexOf terminator fullMessage with
  | none => fullMessage
  | some i => fullMessage.take i

/-- Value of a least-significant-first bit list. -/
def valLE : List Bool → Nat
  | [] => 0
  | b :: bs => (bif b then 1 else 0) + 2 * valLE bs

-- ## LSB techniques (applyLSB / extractLSB / applyImprovedLSB / extractImprovedLSB)

/-- `(v & 0xfe) | bit`: overwrite bit 0. -/
def setBit0 (v : Nat) (b : Bool) : Nat := v &&& 254 ||| (bif b then 1 else 0)

/-- `(v & 0xfd) | (bit << 1)`: overwrite bit 1. -/
def setBit1 (v : Nat) (b : Bool) : Nat := v &&& 253 ||| ((bif b then 1 else 0) <<< 1)

/-- `(v & 0xfb) | (bit << 2)`: overwrite bit 2. -/
def setBit2 (v : Nat) (b : Bool) : Nat := v &&& 251 ||| ((bif b then 1 else 0) <<< 2)

/-- `(v & 0x01)` as a bit. -/
def readBit0 (v : Nat) : Bool := v &&& 1 == 1

/-- `(v & 0x02) >> 1` as a bit. -/
def readBit1 (v : Nat) : Bool := (v &&& 2) >>> 1 == 1

/-- `(v & 0x04) >> 2` as a bit. -/
def readBit2 (v : Nat) : Bool := (v &&& 4) >>> 2 == 1

/-- `applyLSB`: walk pixels (groups of 4 samples), write message bits into
bit 0 of the R,G,B samples, return as soon as the bits are exhausted.
Out-of-range writes of a trailing partial group are dropped (typed array). -/
def applyLSB : List Nat → List Bool → List Nat
  | data, [] => data
  | [], _ :: _ => []
  | [r], b0 :: _ => [setBit0 r b0]
  | [r, g], [b0] => [setBit0 r b0, g]
  | [r, g], b0 :: b1 :: _ => [setBit0 r b0, setBit0 g b1]
  | [r, g, b], [b0] => [setBit0 r b0, g, b]
  | [r, g, b], [b0, b1] => [setBit0 r b0, setBit0 g b1, b]
  | [r, g, b], b0 :: b1 :: b2 :: _ => [setBit0 r b0, setBit0 g b1, setBit0 b b2]
  | r :: g :: b :: a :: rest, [b0] => setBit0 r b0 :: g :: b :: a :: rest
  | r :: g :: b :: a :: rest, [b0, b1] => setBit0 r b0 :: setBit0 g b1 :: b :: a :: rest
  | r :: g :: b :: a :: rest, b0 :: b1 :: b2 :: bs =>
      setBit0 r b0 :: setBit0 g b1 :: setBit0 b b2 :: a :: applyLSB rest bs

/-- The unbounded stream of bits `extractLSB` walks: bit 0 of the R,G,B
samples of every pixel; out-of-range reads of a trailing partial group give
`0` bits (`undefined & 1` in JS). -/
def lsbChannelBits : List Nat → List Bool
  | [] => []
  | [r] => [readBit0 r, false, false]
  | [r, g] => [readBit0 r, readBit0 g, false]
  | [r, g, b] => [readBit0 r, readBit0 g, readBit0 b]
  | r :: g :: b :: _ :: rest => readBit0 r :: readBit0 g :: readBit0 b :: lsbChannelBits rest

/-- Number of bits the LSB extraction loops emit when the buffer is long
enough: the loop appends while `binary.length < min(0.75 * len, 100000)`,
i.e. it stops at `ceil(min(0.75 * len, 100000))` bits. -/
def extractCap (len : Nat) : Nat := (min (3 * len) 400000 + 3) / 4

/-- `extractLSB`: LSB stream truncated by the safety cap. -/
def extractLSB (data : List Nat) : List Bool :=
  (lsbChannelBits data).take (extractCap data.length)

/-- `applyImprovedLSB`: per pixel, bit 1 of R, bit 0 of G, bit 2 of B. -/
def applyImprovedLSB : List Nat → List Bool → List Nat
  | data, [] => data
  | [], _ :: _ => []
  | [r], b0 :: _ => [setBit1 r b0]
  | [r, g], [b0] => [setBit1 r b0, g]
  | [r, g], b0 :: b1 :: _ => [setBit1 r b0, setBit0 g b1]
  | [r, g, b], [b0] => [setBit1 r b0, g, b]
  | [r, g, b], [b0, b1] => [setBit1 r b0, setBit0 g b1, b]
  | [r, g, b], b0 :: b1 :: b2 :: _ => [setBit1 r b0, setBit0 g b1, setBit2 b b2]
  | r :: g :: b :: a :: rest, [b0] => setBit1 r b0 :: g :: b :: a :: rest
  | r :: g :: b :: a :: rest, [b0, b1] => setBit1 r b0 :: setBit0 g b1 :: b :: a :: rest
  | r :: g :: b :: a :: rest, b0 :: b1 :: b2 :: bs =>
      setBit1 r b0 :: setBit0 g b1 :: setBit2 b b2 :: a :: applyImprovedLSB rest bs

/-- The stream of bits `extractImprovedLSB` walks. -/
def improvedChannelBits : List Nat → List Bool
  | [] => []
  | [r] => [readBit1 r, false, false]
  | [r, g] => [readBit1 r, readBit0 g, false]
  | [r, g, b] => [readBit1 r, readBit0 g, readBit2 b]
  | r :: g :: b :: _ :: rest => readBit1 r :: readBit0 g :: readBit2 b :: improvedChannelBits rest

/-- `extractImprovedLSB`: improved-LSB stream truncated by the safety cap. -/
def extractImprovedLSB (data : List Nat) : List Bool :=
  (improvedChannelBits data).take (extractCap data.length)

-- ## Patchwork technique

/-- Patch origin computed by `applyPatchwork`:
`((bitIndex*29) % (width-8), (bitIndex*37) % (height-8))`. -/
def applyPatchworkOrigin (i w h : Nat) : Nat × Nat :=
  ((i * 29) % (w - 8), (i * 37) % (h - 8))

/-- Patch origin recomputed by `extractPatchwork` (same algorithm as encoding). -/
def extractPatchworkOrigin (i w h : Nat) : Nat × Nat :=
  ((i * 29) % (w - 8), (i * 37) % (h - 8))

/-- Patch origin as the spec words it: `(x,y) = ((i*29) mod (width-8), (i*37) mod (height-8))`. -/
def specPatchOrigin (i w h : Nat) : Nat × Nat :=
  ((i * 29) % (w - 8), (i * 37) % (h - 8))

/-- Blue-channel sample indices of the 8×8 patch at origin `(px, py)`,
in the loop order of the source (y outer, x inner). -/
def patchIndices (w px py : Nat) : List Nat :=
  (List.range 8).flatMap (fun y => (List.range 8).map (fun x => ((py + y) * w + (px + x)) * 4 + 2))

/-- One pixel of the patch update: increment (bit 1) / decrement (bit 0) the
blue sample, clamped at 255 / 0. -/
def patchStep (bit : Bool) (data : List Nat) (idx : Nat) : List Nat :=
  let v := data.getD idx 0
  if bit then (if v < 255 then data.set idx (v + 1) else data)
  else (if v > 0 then data.set idx (v - 1) else data)

/-- Loop of `applyPatchwork` over the message bits. -/
def applyPatchworkGo (w h : Nat) : List Bool → Nat → List Nat → List Nat
  | [], _, data => data
  | b :: bs, i, data =>
    let o := applyPatchworkOrigin i w h
    applyPatchworkGo w h bs (i + 1) ((patchIndices w o.1 o.2).foldl (patchStep b) data)

/-- `applyPatchwork` (steganography.ts). -/
def applyPatchwork (data : List Nat) (bits : List Bool) (w h : Nat) : List Nat :=
  applyPatchworkGo w h bits 0 data

/-- Blue-channel sample indices of the 1-pixel border ring around the patch
at `(px, py)`, clipped to the image bounds (loop order of the source). -/
def patchRingIndices (w h px py : Nat) : List Nat :=
  (List.range 10).flatMap (fun yk =>
    (List.range 10).filterMap (fun xk =>
      let y : Int := (yk : Int) - 1
      let x : Int := (xk : Int) - 1
      if 0 ≤ y ∧ y < 8 ∧ 0 ≤ x ∧ x < 8 then none
      else if 0 ≤ (py : Int) + y ∧ (py : Int) + y < (h : Int) ∧
              0 ≤ (px : Int) + x ∧ (px : Int) + x < (w : Int) then
        some (((((py : Int) + y) * w + ((px : Int) + x)) * 4 + 2).toNat)
      else none))

/-- Sum of the blue samples at the given indices, as an exact rational
(idealising the JS float arithmetic). -/
def blueSumAt (data : List Nat) (idxs : List Nat) : ℚ :=
  idxs.foldl (fun s j => s + (data.getD j 0 : ℚ)) 0

/-- Loop of `extractPatchwork`: per bit index, compare the patch's mean blue
value with the border ring's mean; every 8 bits (once ≥ 40 bits) stop if the
decoded text contains the terminator. `fuel` counts down from the 10000-bit cap. -/
def extractPatchworkGo (data : List Nat) (w h : Nat) : Nat → Nat → List Bool → List Bool
  | 0, _, acc => acc
  | fuel + 1, i, acc =>
    let o := extractPatchworkOrigin i w h
    let blueAvg : ℚ := blueSumAt data (patchIndices w o.1 o.2) / 64
    let ring := patchRingIndices w h o.1 o.2
    let surroundingAvg : ℚ :=
      if ring.length > 0 then blueSumAt data ring / (ring.length : ℚ) else blueAvg
    let acc1 := acc ++ [decide (blueAvg > surroundingAvg)]
    if acc1.length % 8 = 0 ∧ 40 ≤ acc1.length ∧
        (jsIndexOf terminator (binaryToText acc1)).isSome then acc1
    else extractPatchworkGo data w h fuel (i + 1) acc1

/-- `extractPatchwork` (steganography.ts). -/
def extractPatchwork (data : List Nat) (w h : Nat) : List Bool :=
  extractPatchworkGo data w h 10000 0 []

-- ## 8×8 DCT primitive (dct.ts) over ℝ

/-- An 8×8 block of real samples. -/
def DBlock : Type := Fin 8 → Fin 8 → ℝ

/-- `Math.cos(((2k+1) * u * Math.PI) / 16)`. -/
noncomputable def dctCos (k u : Fin 8) : ℝ :=
  Real.cos (((2 * (k : ℝ) + 1) * (u : ℝ) * Real.pi) / 16)

/-- The DCT scale factor `C(0) = 1/√2`, `C(k>0) = 1`. -/
noncomputable def dctC (u : Fin 8) : ℝ := if u = 0 then 1 / Real.sqrt 2 else 1

/-- `applyDCT` (dct.ts): forward 8×8 type-II DCT by the double nested sum. -/
noncomputable def applyDCT (block : DBlock) : DBlock := fun u v =>
  (1 / 4) * dctC u * dctC v *
    ∑ x : Fin 8, ∑ y : Fin 8, block x y * dctCos x u * dctCos y v

/-- `applyInverseDCT` (dct.ts): inverse 8×8 DCT by the double nested sum. -/
noncomputable def applyInverseDCT (co : DBlock) : DBlock := fun x y =>
  (1 / 4) * ∑ u : Fin 8, ∑ v : Fin 8, dctC u * dctC v * co u v * dctCos x u * dctCos y v

/-- `extractBlock` (dct.ts): read an 8×8 window of one channel at pixel
coordinate `(x, y)` (the caller guarantees the window is in bounds). -/
noncomputable def extractBlock (data : List Nat) (w x y channel : Nat) : DBlock :=
  fun i j => (data.getD (((y + (i : Nat)) * w + (x + (j : Nat))) * 4 + channel) 0 : ℝ)

/-- `Math.round`: round half toward positive infinity. -/
noncomputable def jsRound (v : ℝ) : ℤ := round v

/-- `Math.max(0, Math.min(255, Math.round(v)))` as a pixel sample. -/
noncomputable def jsClampRound (v : ℝ) : Nat := (max 0 (min 255 (jsRound v))).toNat

/-- The 64 positions of an 8×8 block in row-major loop order. -/
def blockPairs : List (Fin 8 × Fin 8) :=
  (List.finRange 8).flatMap (fun i => (List.finRange 8).map (fun j => (i, j)))

/-- `writeBlock` (dct.ts): write an 8×8 block back, each sample rounded and
clamped to `[0, 255]`. -/
noncomputable def writeBlock (data : List Nat) (w x y : Nat) (block : DBlock) (channel : Nat) :
    List Nat :=
  blockPairs.foldl
    (fun d p =>
      d.set (((y + (p.1 : Nat)) * w + (x + (p.2 : Nat))) * 4 + channel) (jsClampRound (block p.1 p.2)))
    data

-- ## FrequencyCoefficientQuant ("DCT") technique

/-- Pointwise update of one coefficient of a block. -/
def updBlock (m : DBlock) (i j : Fin 8) (v : ℝ) : DBlock :=
  fun a b => if a = i ∧ b = j then v else m a b

/-- `Math.floor(c / 2) * 2`: force a coefficient even. -/
noncomputable def forceEven (c : ℝ) : ℝ := (⌊c / 2⌋ : ℝ) * 2

/-- `Math.floor(c / 2) * 2 + 1`: force a coefficient odd. -/
noncomputable def forceOdd (c : ℝ) : ℝ := (⌊c / 2⌋ : ℝ) * 2 + 1

/-- Coefficient position of length bit `i`: `row = i/4 + 1`, `col = i%4`. -/
def lenBitPos (i : Fin 16) : Fin 8 × Fin 8 :=
  (⟨(i : Nat) / 4 + 1, by omega⟩, ⟨(i : Nat) % 4, by omega⟩)

/-- The 16-bit message length field `bits.length.toString(2).padStart(16, "0")`. -/
def msgLenBits (n : Nat) : List Bool := leftPad 16 (natToBinDigits n)

/-- Embed the 16 length bits into the metadata block's coefficients by
forcing each even (bit 0) or odd (bit 1). -/
noncomputable def embedLenBits (co : DBlock) (lb : List Bool) : DBlock :=
  (List.finRange 16).foldl
    (fun acc i =>
      let p := lenBitPos i
      updBlock acc p.1 p.2
        (if lb.getD (i : Nat) false then forceOdd (acc p.1 p.2) else forceEven (acc p.1 p.2)))
    co

/-- The mid-frequency embedding positions `(3,3), (3,4), (4,3), (4,4)`. -/
def embedPositions : List (Fin 8 × Fin 8) := [(3, 3), (3, 4), (4, 3), (4, 4)]

/-- Quantization-index modulation: `Math.round(c/8)*8`, plus `8/2` for bit 1. -/
noncomputable def quantizeCoeff (c : ℝ) (b : Bool) : ℝ :=
  let quantized := ((jsRound (c / 8) : ℤ) : ℝ) * 8
  if b then quantized + 4 else quantized

/-- Embed up to 4 payload bits into a block's embedding positions. -/
noncomputable def embedPayloadBits : DBlock → List Bool → List (Fin 8 × Fin 8) → DBlock × List Bool
  | co, bits, [] => (co, bits)
  | co, [], _ :: _ => (co, [])
  | co, b :: bs, p :: ps =>
      embedPayloadBits (updBlock co p.1 p.2 (quantizeCoeff (co p.1 p.2) b)) bs ps

/-- Complete 8×8 block coordinates `(blockX, blockY)` in raster order,
`floor(width/8) × floor(height/8)` of them. -/
def blockCoords (w h : Nat) : List (Nat × Nat) :=
  (List.range (h / 8)).flatMap (fun bY => (List.range (w / 8)).map (fun bx => (bx, bY)))

/-- Block loop of `applyDCTSteganography`; stops when the message bits are
exhausted; block (0,0) holds the signature and length metadata. -/
noncomputable def dctEncodeGo (w : Nat) (lenBits : List Bool) :
    List (Nat × Nat) → List Nat → List Bool → List Nat × List Bool
  | [], data, bits => (data, bits)
  | (bx, bY) :: rest, data, bits =>
    if bits.isEmpty then (data, bits)
    else if bx = 0 ∧ bY = 0 then
      let co := applyDCT (extractBlock data w 0 0 2)
      let co1 := updBlock co 0 0 (forceEven (co 0 0))
      let co2 := embedLenBits co1 lenBits
      dctEncodeGo w lenBits rest (writeBlock data w 0 0 (applyInverseDCT co2) 2) bits
    else
      let co := applyDCT (extractBlock data w (8 * bx) (8 * bY) 2)
      let r := embedPayloadBits co bits embedPositions
      dctEncodeGo w lenBits rest (writeBlock data w (8 * bx) (8 * bY) (applyInverseDCT r.1) 2) r.2

/-- `applyDCTSteganography` (steganography.ts). -/
noncomputable def applyDCTSteganography (data : List Nat) (bits : List Bool) (w h : Nat) :
    List Nat :=
  (dctEncodeGo w ((msgLenBits bits.length).take 16) (blockCoords w h) data bits).1

/-- Parity of a rounded coefficient (`Math.round(c) % 2 !== 0`), the decoded
bit value. -/
noncomputable def coeffBit (c : ℝ) : Bool := !(Int.tmod (jsRound c) 2 == 0)

inductive StegError where
  | capacityExceeded
  | signatureMismatch
deriving DecidableEq

/-- Block loop of `extractDCTSteganography`: read parity bits at the
embedding positions until the declared bit length is reached. -/
noncomputable def extractDCTgo (data : List Nat) (w msgLen : Nat) :
    List (Nat × Nat) → List Bool → List Bool
  | [], acc => acc
  | (bx, bY) :: rest, acc =>
    if msgLen ≤ acc.length then acc
    else if bx = 0 ∧ bY = 0 then extractDCTgo data w msgLen rest acc
    else
      let co := applyDCT (extractBlock data w (8 * bx) (8 * bY) 2)
      extractDCTgo data w msgLen rest
        (acc ++ (embedPositions.map (fun p => coeffBit (co p.1 p.2))).take (msgLen - acc.length))

/-- `extractDCTSteganography` (steganography.ts): check the DC-parity
signature of block (0,0), read the 16-bit length, then read payload bits. -/
noncomputable def extractDCTSteganography (data : List Nat) (w h : Nat) :
    Except StegError (List Bool) :=
  let metaCo := applyDCT (extractBlock data w 0 0 2)
  if coeffBit (metaCo 0 0) then .error .signatureMismatch
  else
    let lenBits := (List.finRange 16).map (fun i => coeffBit (metaCo (lenBitPos i).1 (lenBitPos i).2))
    .ok (extractDCTgo data w (bitsToNat lenBits) (blockCoords w h) [])

-- ## HistogramPeakShift technique

/-- Sample indices `i = 32*4, 32*4+4, ...` visited by the histogram loops
(`i < len`, step 4); the blue sample of pixel `i/4` is at `i + 2`. -/
def hsIndices (len : Nat) : List Nat := List.range' 128 ((len - 128 + 3) / 4) 4

/-- Histogram of the blue channel over all pixels except the first 32. -/
def hsHistogram (data : List Nat) : List Nat :=
  (hsIndices data.length).foldl
    (fun h i =>
      let v := data.getD (i + 2) 0
      h.set v (h.getD v 0 + 1))
    (List.replicate 256 0)

/-- Peak point: most frequent value, first occurrence wins (strict `>`). -/
def hsFindPeak (h : List Nat) : Nat :=
  ((List.range 256).foldl (fun s i => if h.getD i 0 > s.2 then (i, h.getD i 0) else s) (0, 0)).1

/-- Zero point: least frequent non-zero-count value within ±20 of the peak
(window clamped to `[1, 254]`), seeded at the value adjacent to the peak. -/
def hsFindZero (h : List Nat) (peak : Nat) : Nat :=
  let z0 := if peak > 127 then peak - 1 else peak + 1
  let lb := max 1 (peak - 20)
  let ub := min 254 (peak + 20)
  ((List.range' lb (ub + 1 - lb)).foldl
    (fun s i => if i ≠ peak ∧ h.getD i 0 < s.2 ∧ h.getD i 0 > 0 then (i, h.getD i 0) else s)
    (z0, h.getD z0 0)).1

/-- Histogram shift: move every non-reserved blue sample strictly between
peak and zeroPt point one step toward the zeroPt point. -/
def hsShift (data : List Nat) (peak zeroPt : Nat) (shiftRight : Bool) : List Nat :=
  (hsIndices data.length).foldl
    (fun d i =>
      let v := d.getD (i + 2) 0
      if shiftRight then (if v > peak ∧ v < zeroPt then d.set (i + 2) (v + 1) else d)
      else (if v > zeroPt ∧ v < peak then d.set (i + 2) (v - 1) else d))
    data

/-- Embedding loop: each peak-valued blue sample consumes one message bit;
bit 1 moves it to `peak±1`, bit 0 leaves it. -/
def hsEmbed (peak : Nat) (shiftRight : Bool) : List Nat → List Bool → List Nat → List Nat
  | [], _, d => d
  | _ :: _, [], d => d
  | i :: rest, b :: bs, d =>
    if d.getD (i + 2) 0 = peak then
      hsEmbed peak shiftRight rest bs
        (if b then d.set (i + 2) (if shiftRight then peak + 1 else peak - 1) else d)
    else hsEmbed peak shiftRight rest (b :: bs) d

/-- Metadata written into the blue channel of the first 13 pixels: signature
`(i+1)*10`, peak, zeroPt, direction, and the two length bytes. The source
computes the byte length as `binaryMessage.length / 8` in float arithmetic;
every call site passes a bit string from `textToBinary`, whose length is the
exact byte multiple modelled here by `Nat` division. -/
def hsMetadata (d : List Nat) (peak zeroPt : Nat) (shiftRight : Bool) (bitLen : Nat) : List Nat :=
  let d1 := (List.range 8).foldl (fun d i => d.set (i * 4 + 2) ((i + 1) * 10)) d
  let d2 := (d1.set 34 peak).set 38 zeroPt
  let d3 := (d2.set 42 (if shiftRight then 1 else 0)).set 46 (min 255 (bitLen / 8))
  d3.set 50 (if bitLen / 8 > 255 then bitLen / 8 / 256 else 0)

/-- `applyHistogramShifting` (steganography.ts). -/
def applyHistogramShifting (data : List Nat) (bits : List Bool) : List Nat :=
  let hist := hsHistogram data
  let peak := hsFindPeak hist
  let zeroPt := hsFindZero hist peak
  let sr := decide (zeroPt > peak)
  let d1 := hsShift data peak zeroPt sr
  let d2 := hsEmbed peak sr (hsIndices data.length) bits d1
  hsMetadata d2 peak zeroPt sr bits.length

/-- The bit length the decoder reconstructs: `(byte11 + byte12 * 256) * 8`. -/
def hsStoredBitLength (data : List Nat) : Nat :=
  (data.getD 46 0 + data.getD 50 0 * 256) * 8

/-- Signature check: first 8 pixels' blue samples must equal `(i+1)*10`. -/
def hsSignatureOk (data : List Nat) : Bool :=
  (List.range 8).all (fun i => data.getD (i * 4 + 2) 0 == (i + 1) * 10)

/-- Extraction loop: peak value yields bit 0, shifted peak yields bit 1,
anything else contributes nothing, until the declared length is reached. -/
def hsExtractGo (peak : Nat) (sr : Bool) (msgLen : Nat) (data : List Nat) :
    List Nat → List Bool → List Bool
  | [], acc => acc
  | i :: rest, acc =>
    if msgLen ≤ acc.length then acc
    else
      let v := data.getD (i + 2) 0
      if v = peak then hsExtractGo peak sr msgLen data rest (acc ++ [false])
      else if (sr && (v == peak + 1)) || (!sr && (v == peak - 1)) then
        hsExtractGo peak sr msgLen data rest (acc ++ [true])
      else hsExtractGo peak sr msgLen data rest acc

/-- `extractHistogramShifting` (steganography.ts). -/
def extractHistogramShifting (data : List Nat) : Except StegError (List Bool) :=
  if ¬hsSignatureOk data then .error .signatureMismatch
  else
    let peak := data.getD 34 0
    let sr := data.getD 42 0 == 1
    let msgLen := hsStoredBitLength data
    .ok ((hsExtractGo peak sr msgLen data (hsIndices data.length) []).take msgLen)

-- ## Encode / decode pipeline (processEncoding / processDecoding)

inductive Technique where
  | lsb
  | lsbImproved
  | patchwork
  | dct
  | histogram
deriving DecidableEq

/-- The technique dispatch of `processEncoding` (mutating switch). -/
noncomputable def applyTechnique (t : Technique) (data : List Nat) (bits : List Bool) (w h : Nat) :
    List Nat :=
  match t with
  | .lsb => applyLSB data bits
  | .lsbImproved => applyImprovedLSB data bits
  | .patchwork => applyPatchwork data bits w h
  | .dct => applyDCTSteganography data bits w h
  | .histogram => applyHistogramShifting data bits

/-- The technique dispatch of `processDecoding`. -/
noncomputable def extractTechniqueBits (t : Technique) (data : List Nat) (w h : Nat) :
    Except StegError (List Bool) :=
  match t with
  | .lsb => .ok (extractLSB data)
  | .lsbImproved => .ok (extractImprovedLSB data)
  | .patchwork => .ok (extractPatchwork data w h)
  | .dct => extractDCTSteganography data w h
  | .histogram => extractHistogramShifting data

/-- `processEncoding` (steganography.ts): append the terminator, convert to
bits, fail with `capacityExceeded` when `binaryMessage.length > 0.75 * data.length`
(before any mutation), otherwise run the selected technique. Returns the
buffer state after the call together with the error, if any. The float
comparison `binaryMessage.length > data.length * 0.75` is exact (0.75 is
dyadic), so it is modelled by the equivalent `4 * bits > 3 * len`; the
equivalence with the rational inequality is `capacity_bridge`. -/
noncomputable def processEncoding (data message : List Nat) (t : Technique) (w h : Nat) :
    List Nat × Option StegError :=
  let binaryMessage := textToBinary (message ++ terminator)
  if 3 * data.length < 4 * binaryMessage.length then
    (data, some .capacityExceeded)
  else (applyTechnique t data binaryMessage w h, none)

/-- `processDecoding` (steganography.ts): extract the bit string with the
selected technique, then rebuild and truncate the text. -/
noncomputable def processDecoding (data : List Nat) (t : Technique) (w h : Nat) :
    Except StegError (List Nat) :=
  match extractTechniqueBits t data w h with
  | .error e => .error e
  | .ok bits => .ok (processDecodingBits bits)

deriving instance DecidableEq for Except

-- ## Helper lemmas for the bit codec

theorem valLE_natBitsLEAux (fuel : Nat) : ∀ n, n ≤ fuel → valLE (natBitsLEAux fuel n) = n := by
  induction fuel with
  | zero =>
    intro n hn
    interval_cases n
    simp [natBitsLEAux, valLE]
  | succ fuel ih =>
    intro n hn
    match n with
    | 0 => simp [natBitsLEAux, valLE]
    | m + 1 =>
      rw [natBitsLEAux, valLE]
      rw [ih ((m + 1) / 2) (by omega)]
      rcases Nat.even_or_odd (m + 1) with h | h
      · have h2 : (m + 1) % 2 = 0 := Nat.even_iff.mp h
        simp [h2]
        omega
      · have h2 : (m + 1) % 2 = 1 := Nat.odd_iff.mp h
        simp [h2]
        omega

theorem valLE_natBitsLE (n : Nat) : valLE (natBitsLE n) = n :=
  valLE_natBitsLEAux n n le_rfl

theorem bitsToNat_append (l₁ l₂ : List Bool) :
    bitsToNat (l₁ ++ l₂) =
      bitsToNat l₂ + valLE (l₁.reverse) * 2 ^ l₂.length := by
  induction l₂ using List.reverseRecOn generalizing l₁ with
  | nil =>
    simp [bitsToNat, valLE]
    induction l₁ using List.reverseRecOn with
    | nil => simp [valLE]
    | append_singleton l b ih =>
      simp [List.foldl_append, ih, valLE]
      cases b <;> simp [valLE] <;> try ring
  | append_singleton l₂ b ih =>
    have : l₁ ++ (l₂ ++ [b]) = (l₁ ++ l₂) ++ [b] := by simp
    rw [this]
    simp only [bitsToNat, List.foldl_append] at *
    have h₂ := ih l₁
    simp only [bitsToNat] at h₂
    rw [h₂]
    simp [List.length_append, pow_succ]
    cases b <;> simp <;> ring

theorem bitsToNat_reverse_eq_valLE (l : List Bool) :
    bitsToNat l.reverse = valLE l := by
  have h := bitsToNat_append l.reverse []
  simpa [bitsToNat] using h

theorem bitsToNat_natToBinDigits (n : Nat) : bitsToNat (natToBinDigits n) = n := by
  unfold natToBinDigits
  split
  · simp [bitsToNat]; omega
  · rw [bitsToNat_reverse_eq_valLE, valLE_natBitsLE]

theorem bitsToNat_replicate_false_append (k : Nat) (l : List Bool) :
    bitsToNat (List.replicate k false ++ l) = bitsToNat l := by
  induction k with
  | zero => simp
  | succ k ih =>
    rw [List.replicate_succ, List.cons_append]
    simpa [bitsToNat] using ih

theorem bitsToNat_jsCharBits (n : Nat) : bitsToNat (jsCharBits n) = n := by
  rw [jsCharBits, leftPad, bitsToNat_replicate_false_append, bitsToNat_natToBinDigits]

theorem natBitsLEAux_length_le (fuel : Nat) :
    ∀ n k, n < 2 ^ k → (natBitsLEAux fuel n).length ≤ k := by
  induction fuel with
  | zero =>
    intro n k _
    match n with
    | 0 => simp [natBitsLEAux]
    | _ + 1 => simp [natBitsLEAux]
  | succ fuel ih =>
    intro n k h
    match n with
    | 0 => simp [natBitsLEAux]
    | m + 1 =>
      rw [natBitsLEAux]
      match k with
      | 0 => omega
      | k + 1 =>
        simp only [List.length_cons, Nat.add_le_add_iff_right]
        exact ih ((m + 1) / 2) k (Nat.div_lt_of_lt_mul (by rw [pow_succ] at h; omega))

theorem natBitsLE_length_le (n k : Nat) (h : n < 2 ^ k) : (natBitsLE n).length ≤ k :=
  natBitsLEAux_length_le n n k h

theorem jsCharBits_length (n : Nat) (h : n < 256) : (jsCharBits n).length = 8 := by
  have hlen : (natToBinDigits n).length ≤ 8 := by
    unfold natToBinDigits
    split
    · simp
    · simpa using natBitsLE_length_le n 8 h
  simp [jsCharBits, leftPad]
  omega

theorem textToBinary_length (t : List Nat) (h : ∀ c ∈ t, c < 256) :
    (textToBinary t).length = 8 * t.length := by
  induction t with
  | nil => simp [textToBinary]
  | cons c cs ih =>
    rw [textToBinary, List.flatMap_cons]
    rw [List.length_append]
    have h1 : (jsCharBits c).length = 8 := jsCharBits_length c (h c (by simp))
    have h2 := ih (fun x hx => h x (by simp [hx]))
    rw [textToBinary] at h2
    rw [h1, h2]
    simp [List.length_cons]
    ring

theorem binaryToText_eight (l r : List Bool) (h : l.length = 8) :
    binaryToText (l ++ r) = bitsToNat l :: binaryToText r := by
  match l, h with
  | [b0, b1, b2, b3, b4, b5, b6, b7], _ => rfl

theorem binaryToText_textToBinary_append (t : List Nat) (rest : List Bool)
    (h : ∀ c ∈ t, c < 256) :
    binaryToText (textToBinary t ++ rest) = t ++ binaryToText rest := by
  induction t with
  | nil => simp [textToBinary]
  | cons c cs ih =>
    rw [textToBinary, List.flatMap_cons, List.append_assoc]
    rw [binaryToText_eight _ _ (jsCharBits_length c (h c (by simp)))]
    rw [bitsToNat_jsCharBits]
    have := ih (fun x hx => h x (by simp [hx]))
    rw [textToBinary] at this
    rw [this]
    simp

/-- C9. For every string whose characters all have code points at most 255,
converting to the binary bit string and back is the identity:
`binaryToText (textToBinary s) = s`. -/
theorem binaryToText_textToBinary (t : List Nat) (h : ∀ c ∈ t, c < 256) :
    binaryToText (textToBinary t) = t := by
  have := binaryToText_textToBinary_append t [] h
  simpa [binaryToText] using this

/-- Witness for C9 at the concrete string `"hi"` (codes `[104, 105]`). -/
theorem binaryToText_textToBinary_witness :
    (∀ c ∈ [104, 105], c < 256) ∧ binaryToText (textToBinary [104, 105]) = [104, 105] :=
  ⟨by decide, binaryToText_textToBinary [104, 105] (by decide)⟩

-- ## First-occurrence lemmas for jsIndexOf

theorem occursAt_length_le {pat txt : List Nat} {i : Nat} (hp : 0 < pat.length)
    (h : occursAt pat txt i) : i + pat.length ≤ txt.length := by
  unfold occursAt at h
  have := congrArg List.length h
  simp [List.length_take, List.length_drop] at this
  omega

theorem isPrefixOf_iff_occursAt_zero (pat txt : List Nat) :
    pat.isPrefixOf txt = true ↔ occursAt pat txt 0 := by
  rw [List.isPrefixOf_iff_prefix, List.prefix_iff_eq_take, occursAt]
  simp [eq_comm]

theorem occursAt_cons_succ (pat : List Nat) (c : Nat) (t : List Nat) (i : Nat) :
    occursAt pat (c :: t) (i + 1) ↔ occursAt pat t i := by
  unfold occursAt
  rw [List.drop_succ_cons]

theorem jsIndexOf_eq_none {pat txt : List Nat} (h : jsIndexOf pat txt = none) :
    ∀ i, ¬occursAt pat txt i := by
  induction txt with
  | nil =>
    intro i hocc
    rw [jsIndexOf] at h
    split at h
    · exact absurd h (by simp)
    · rename_i hpre
      unfold occursAt at hocc
      simp at hocc
      rw [← hocc] at hpre
      simp [List.isPrefixOf_iff_prefix] at hpre
  | cons c t ih =>
    intro i hocc
    rw [jsIndexOf] at h
    split at h
    · exact absurd h (by simp)
    · rename_i hpre
      have hnone : jsIndexOf pat t = none := by
        cases hj : jsIndexOf pat t <;> simp [hj] at h
        rfl
      match i with
      | 0 => exact hpre ((isPrefixOf_iff_occursAt_zero pat (c :: t)).mpr hocc)
      | i + 1 => exact ih hnone i ((occursAt_cons_succ pat c t i).mp hocc)

theorem jsIndexOf_eq_some {pat txt : List Nat} {i : Nat} (h : jsIndexOf pat txt = some i) :
    occursAt pat txt i ∧ ∀ j < i, ¬occursAt pat txt j := by
  induction txt generalizing i with
  | nil =>
    rw [jsIndexOf] at h
    split at h
    · rename_i hpre
      simp at h
      subst h
      exact ⟨(isPrefixOf_iff_occursAt_zero pat []).mp hpre, by omega⟩
    · exact absurd h (by simp)
  | cons c t ih =>
    rw [jsIndexOf] at h
    split at h
    · rename_i hpre
      simp at h
      subst h
      exact ⟨(isPrefixOf_iff_occursAt_zero pat (c :: t)).mp hpre, by omega⟩
    · rename_i hpre
      cases hj : jsIndexOf pat t with
      | none => simp [hj] at h
      | some i' =>
        simp [hj] at h
        subst h
        obtain ⟨hocc, hmin⟩ := ih hj
        refine ⟨(occursAt_cons_succ pat c t i').mpr hocc, ?_⟩
        intro j hj2
        match j with
        | 0 =>
          intro hocc0
          exact hpre ((isPrefixOf_iff_occursAt_zero pat (c :: t)).mpr hocc0)
        | j + 1 =>
          rw [occursAt_cons_succ]
          exact hmin j (by omega)

theorem jsIndexOf_first {pat txt : List Nat} {i : Nat} (hocc : occursAt pat txt i)
    (hmin : ∀ j < i, ¬occursAt pat txt j) : jsIndexOf pat txt = some i := by
  cases hj : jsIndexOf pat txt with
  | none => exact absurd hocc (jsIndexOf_eq_none hj i)
  | some i' =>
    obtain ⟨hocc', hmin'⟩ := jsIndexOf_eq_some hj
    rcases Nat.lt_trichotomy i i' with hlt | heq | hgt
    · exact absurd hocc (hmin' i hlt)
    · rw [heq]
    · exact absurd hocc' (hmin i' hgt)

/-- C7. The decoding pipeline reconstructs text from the extracted bits,
truncates at the first index of the terminator marker, and returns the full
reconstructed text (not an error) when the marker is absent. -/
theorem processDecodingBits_spec (bits : List Bool) :
    ((∀ i < (binaryToText bits).length, ¬occursAt terminator (binaryToText bits) i) →
      processDecodingBits bits = binaryToText bits) ∧
    (∀ i, occursAt terminator (binaryToText bits) i →
      (∀ j < i, ¬occursAt terminator (binaryToText bits) j) →
      processDecodingBits bits = (binaryToText bits).take i) := by
  constructor
  · intro habsent
    have hnone : jsIndexOf terminator (binaryToText bits) = none := by
      cases hj : jsIndexOf terminator (binaryToText bits) with
      | none => rfl
      | some i =>
        obtain ⟨hocc, -⟩ := jsIndexOf_eq_some hj
        have hlen := occursAt_length_le (by simp [terminator]) hocc
        have hi : i < (binaryToText bits).length := by
          simp [terminator] at hlen
          omega
        exact absurd hocc (habsent i hi)
    simp only [processDecodingBits, hnone]
  · intro i hocc hmin
    simp only [processDecodingBits, jsIndexOf_first hocc hmin]

/-- Witness for C7: decoding the 16 bits of `"hi"` (no terminator present)
returns the full text. -/
theorem processDecodingBits_spec_witness :
    processDecodingBits (textToBinary [104, 105]) = binaryToText (textToBinary [104, 105]) :=
  (processDecodingBits_spec (textToBinary [104, 105])).1 (by decide)

-- ## C1: capacity check of processEncoding

/-- The JS capacity comparison, exact over the rationals, is equivalent to
the integer comparison used in the model. -/
theorem capacity_bridge (B L : Nat) : ((B : ℚ) > (L : ℚ) * (3 / 4)) ↔ 3 * L < 4 * B := by
  rw [gt_iff_lt, (by push_cast; ring : (L : ℚ) * (3 / 4) = (3 * L : Nat) / 4)]
  rw [div_lt_iff₀ (by norm_num)]
  rw [(by push_cast; ring : (B : ℚ) * 4 = ((4 * B : Nat) : ℚ))]
  exact Nat.cast_lt

/-- C1. `processEncoding` fails with `capacityExceeded` exactly when the bit
length of payload plus terminator exceeds `0.75 *` the buffer length, and in
that case the pixel buffer is returned unmodified (the check runs before any
technique mutates the buffer). -/
theorem processEncoding_capacity (data message : List Nat) (t : Technique) (w h : Nat) :
    ((processEncoding data message t w h).2 = some .capacityExceeded ↔
      ((textToBinary (message ++ terminator)).length : ℚ) > (data.length : ℚ) * (3 / 4)) ∧
    ((processEncoding data message t w h).2 = some .capacityExceeded →
      (processEncoding data message t w h).1 = data) := by
  simp only [processEncoding]
  rw [capacity_bridge]
  split <;> simp_all

-- ## C8: patchwork patch-origin determinism

/-- C8. The patch origins used by `applyPatchwork` and by `extractPatchwork`
are the same pure function of bit index, width and height, and both equal the
spec formula `((i*29) mod (width-8), (i*37) mod (height-8))`. -/
theorem patchOrigin_agreement (w h : Nat) (hw : 8 < w) (hh : 8 < h) (n : Nat) :
    ((List.range (n + 1)).map (fun i => applyPatchworkOrigin i w h) =
      (List.range (n + 1)).map (fun i => extractPatchworkOrigin i w h)) ∧
    (∀ i, applyPatchworkOrigin i w h = specPatchOrigin i w h ∧
      extractPatchworkOrigin i w h = specPatchOrigin i w h) :=
  ⟨rfl, fun _ => ⟨rfl, rfl⟩⟩

/-- Witness for C8 at `w = 20`, `h = 30`, bit indices `0..5`. -/
theorem patchOrigin_agreement_witness :
    8 < 20 ∧ 8 < 30 ∧
    (((List.range (5 + 1)).map (fun i => applyPatchworkOrigin i 20 30) =
      (List.range (5 + 1)).map (fun i => extractPatchworkOrigin i 20 30)) ∧
    (∀ i, applyPatchworkOrigin i 20 30 = specPatchOrigin i 20 30 ∧
      extractPatchworkOrigin i 20 30 = specPatchOrigin i 20 30)) :=
  ⟨by decide, by decide, patchOrigin_agreement 20 30 (by decide) (by decide) 5⟩

-- ## Frame lemmas: which sample indices the encoders write

theorem getD_set_ne (l : List Nat) (i j v : Nat) (h : i ≠ j) :
    (l.set i v).getD j 0 = l.getD j 0 := by
  simp [List.getD_eq_getElem?_getD, List.getElem?_set_ne h]

theorem getD_set_self (l : List Nat) (i v : Nat) (h : i < l.length) :
    (l.set i v).getD i 0 = v := by
  simp [List.getD_eq_getElem?_getD, List.getElem?_set_self, h]

theorem pixel_index_inj {w px py q r : Nat} (hpx : px < w) (hr : r < w)
    (h : py * w + px = q * w + r) : py = q ∧ px = r := by
  rcases Nat.lt_trichotomy py q with hlt | heq | hgt
  · exfalso
    have : py * w + px < q * w + r := by
      calc py * w + px < py * w + w := by omega
        _ = (py + 1) * w := by ring
        _ ≤ q * w := Nat.mul_le_mul_right w hlt
        _ ≤ q * w + r := by omega
    omega
  · subst heq
    exact ⟨rfl, by omega⟩
  · exfalso
    have : q * w + r < py * w + px := by
      calc q * w + r < q * w + w := by omega
        _ = (q + 1) * w := by ring
        _ ≤ py * w := Nat.mul_le_mul_right w hgt
        _ ≤ py * w + px := by omega
    omega

theorem writeBlock_getD_ne (data : List Nat) (w x y : Nat) (B : DBlock) (c k : Nat)
    (h : ∀ i j : Fin 8, k ≠ ((y + (i : Nat)) * w + (x + (j : Nat))) * 4 + c) :
    (writeBlock data w x y B c).getD k 0 = data.getD k 0 := by
  unfold writeBlock
  have haux : ∀ (l : List (Fin 8 × Fin 8)) (d : List Nat),
      (∀ p ∈ l, k ≠ ((y + (p.1 : Nat)) * w + (x + (p.2 : Nat))) * 4 + c) →
      (l.foldl
        (fun d p =>
          d.set (((y + (p.1 : Nat)) * w + (x + (p.2 : Nat))) * 4 + c) (jsClampRound (B p.1 p.2)))
        d).getD k 0 = d.getD k 0 := by
    intro l
    induction l with
    | nil => intro d _; rfl
    | cons p ps ih =>
      intro d hall
      rw [List.foldl_cons]
      rw [ih _ (fun q hq => hall q (List.mem_cons_of_mem p hq))]
      exact getD_set_ne _ _ _ _ (Ne.symm (hall p (List.mem_cons_self p ps)))
  exact haux blockPairs data (fun p _ => h p.1 p.2)

theorem blockCoords_mem {w h : Nat} {q : Nat × Nat} (hq : q ∈ blockCoords w h) :
    q.1 < w / 8 ∧ q.2 < h / 8 := by
  simp only [blockCoords, List.mem_flatMap, List.mem_map, List.mem_range] at hq
  obtain ⟨bY, hbY, bx, hbx, rfl⟩ := hq
  exact ⟨hbx, hbY⟩

theorem dctEncodeGo_frame (w : Nat) (lb : List Bool) (coords : List (Nat × Nat)) (k : Nat) :
    ∀ (data : List Nat) (bits : List Bool),
    (∀ q ∈ coords, ∀ i j : Fin 8,
      k ≠ ((8 * q.2 + (i : Nat)) * w + (8 * q.1 + (j : Nat))) * 4 + 2) →
    (dctEncodeGo w lb coords data bits).1.getD k 0 = data.getD k 0 := by
  induction coords with
  | nil => intro data bits _; rfl
  | cons q qs ih =>
    intro data bits hall
    obtain ⟨bx, bY⟩ := q
    rw [dctEncodeGo]
    split
    · rfl
    · split
      · rename_i hz
        obtain ⟨hbx, hbY⟩ := hz
        subst hbx
        subst hbY
        rw [ih _ _ (fun q hq => hall q (List.mem_cons_of_mem _ hq))]
        apply writeBlock_getD_ne
        intro i j
        have := hall (0, 0) (List.mem_cons_self _ _) i j
        simpa using this
      · rw [ih _ _ (fun q hq => hall q (List.mem_cons_of_mem _ hq))]
        apply writeBlock_getD_ne
        intro i j
        have := hall (bx, bY) (List.mem_cons_self _ _) i j
        simpa [Nat.mul_comm 8 bx, Nat.mul_comm 8 bY] using this

/-- C6. For buffers whose width or height is not a multiple of 8,
`applyDCTSteganography` uses the floor-division block grid
`floor(w/8) × floor(h/8)` and never touches a sample of a pixel outside the
complete-block grid. -/
theorem applyDCTSteganography_partial_blocks (data : List Nat) (bits : List Bool)
    (w h px py c : Nat) (hdim : w % 8 ≠ 0 ∨ h % 8 ≠ 0) (hpx : px < w) (hpy : py < h)
    (hc : c < 4) (hout : 8 * (w / 8) ≤ px ∨ 8 * (h / 8) ≤ py) :
    (applyDCTSteganography data bits w h).getD ((py * w + px) * 4 + c) 0 =
      data.getD ((py * w + px) * 4 + c) 0 := by
  unfold applyDCTSteganography
  apply dctEncodeGo_frame
  intro q hq i j heq
  obtain ⟨hq1, hq2⟩ := blockCoords_mem hq
  have hc2 : c = 2 ∧ py * w + px = (8 * q.2 + (i : Nat)) * w + (8 * q.1 + (j : Nat)) := by
    omega
  have hxlt : 8 * q.1 + (j : Nat) < w := by
    have h1 : (j : Nat) < 8 := j.isLt
    have h2 : w / 8 * 8 ≤ w := Nat.div_mul_le_self w 8
    omega
  obtain ⟨hpy', hpx'⟩ := pixel_index_inj hpx hxlt hc2.2
  have hilt : (i : Nat) < 8 := i.isLt
  have hjlt : (j : Nat) < 8 := j.isLt
  omega

/-- Witness for C6: a 9×8 all-zero buffer with one message bit; the sample of
the pixel at `(8, 0)` (outside the 1×1 block grid) is unchanged. -/
theorem applyDCTSteganography_partial_blocks_witness :
    (9 % 8 ≠ 0 ∨ 8 % 8 ≠ 0) ∧ 8 < 9 ∧ 0 < 8 ∧ 2 < 4 ∧ (8 * (9 / 8) ≤ 8 ∨ 8 * (8 / 8) ≤ 0) ∧
    (applyDCTSteganography (List.replicate 288 0) [true] 9 8).getD ((0 * 9 + 8) * 4 + 2) 0 =
      (List.replicate 288 0 : List Nat).getD ((0 * 9 + 8) * 4 + 2) 0 :=
  ⟨by decide, by decide, by decide, by decide, by decide,
    applyDCTSteganography_partial_blocks (List.replicate 288 0) [true] 9 8 8 0 2
      (by decide) (by decide) (by decide) (by decide) (by decide)⟩

theorem patchStep_getD_ne (b : Bool) (data : List Nat) (idx k : Nat) (h : idx ≠ k) :
    (patchStep b data idx).getD k 0 = data.getD k 0 := by
  unfold patchStep
  simp only []
  split
  · split
    · exact getD_set_ne _ _ _ _ h
    · rfl
  · split
    · exact getD_set_ne _ _ _ _ h
    · rfl

theorem patchIndices_mem_mod {w px py : Nat} {i : Nat} (hi : i ∈ patchIndices w px py) :
    i % 4 = 2 := by
  simp only [patchIndices, List.mem_flatMap, List.mem_map, List.mem_range] at hi
  obtain ⟨y, -, x, -, rfl⟩ := hi
  omega

theorem patchFold_frame (b : Bool) (k : Nat) (idxs : List Nat) :
    ∀ data : List Nat, (∀ i ∈ idxs, i ≠ k) →
    (idxs.foldl (patchStep b) data).getD k 0 = data.getD k 0 := by
  induction idxs with
  | nil => intro data _; rfl
  | cons i is ih =>
    intro data hall
    rw [List.foldl_cons, ih _ (fun j hj => hall j (List.mem_cons_of_mem i hj))]
    exact patchStep_getD_ne b data i k (hall i (List.mem_cons_self i is))

theorem applyPatchworkGo_frame (w h k : Nat) (hk : k % 4 ≠ 2) :
    ∀ (bits : List Bool) (i : Nat) (data : List Nat),
    (applyPatchworkGo w h bits i data).getD k 0 = data.getD k 0 := by
  intro bits
  induction bits with
  | nil => intro i data; rfl
  | cons b bs ih =>
    intro i data
    rw [applyPatchworkGo, ih]
    exact patchFold_frame b k _ data
      (fun j hj => fun heq => hk (heq ▸ patchIndices_mem_mod hj))

theorem hsIndices_mem_mod {len i : Nat} (hi : i ∈ hsIndices len) : i % 4 = 0 := by
  simp only [hsIndices, List.mem_range'] at hi
  obtain ⟨m, -, rfl⟩ := hi
  omega

theorem hsShift_frame (data : List Nat) (peak zeroPt : Nat) (sr : Bool) (k : Nat)
    (hk : k % 4 ≠ 2) : (hsShift data peak zeroPt sr).getD k 0 = data.getD k 0 := by
  unfold hsShift
  have haux : ∀ (idxs : List Nat) (d : List Nat), (∀ i ∈ idxs, i % 4 = 0) →
      (idxs.foldl
        (fun d i =>
          let v := d.getD (i + 2) 0
          if sr then (if v > peak ∧ v < zeroPt then d.set (i + 2) (v + 1) else d)
          else (if v > zeroPt ∧ v < peak then d.set (i + 2) (v - 1) else d))
        d).getD k 0 = d.getD k 0 := by
    intro idxs
    induction idxs with
    | nil => intro d _; rfl
    | cons i is ih =>
      intro d hall
      rw [List.foldl_cons, ih _ (fun j hj => hall j (List.mem_cons_of_mem i hj))]
      have hi := hall i (List.mem_cons_self i is)
      have hne : i + 2 ≠ k := by omega
      simp only []
      split
      · split
        · exact getD_set_ne _ _ _ _ hne
        · rfl
      · split
        · exact getD_set_ne _ _ _ _ hne
        · rfl
  exact haux _ data (fun i hi => hsIndices_mem_mod hi)

theorem hsEmbed_frame (peak : Nat) (sr : Bool) (k : Nat) (hk : k % 4 ≠ 2) :
    ∀ (idxs : List Nat) (bits : List Bool) (d : List Nat), (∀ i ∈ idxs, i % 4 = 0) →
    (hsEmbed peak sr idxs bits d).getD k 0 = d.getD k 0 := by
  intro idxs
  induction idxs with
  | nil => intro bits d _; rfl
  | cons i is ih =>
    intro bits d hall
    match bits with
    | [] => rfl
    | b :: bs =>
      rw [hsEmbed]
      have hi := hall i (List.mem_cons_self i is)
      have hne : i + 2 ≠ k := by omega
      split
      · rw [ih _ _ (fun j hj => hall j (List.mem_cons_of_mem i hj))]
        split
        · exact getD_set_ne _ _ _ _ hne
        · rfl
      · exact ih _ _ (fun j hj => hall j (List.mem_cons_of_mem i hj))

theorem hsMetadata_frame (d : List Nat) (peak zeroPt : Nat) (sr : Bool) (bitLen k : Nat)
    (hk : k % 4 ≠ 2) : (hsMetadata d peak zeroPt sr bitLen).getD k 0 = d.getD k 0 := by
  unfold hsMetadata
  rw [getD_set_ne _ _ _ _ (by omega : (50 : Nat) ≠ k)]
  rw [getD_set_ne _ _ _ _ (by omega : (46 : Nat) ≠ k)]
  rw [getD_set_ne _ _ _ _ (by omega : (42 : Nat) ≠ k)]
  rw [getD_set_ne _ _ _ _ (by omega : (38 : Nat) ≠ k)]
  rw [getD_set_ne _ _ _ _ (by omega : (34 : Nat) ≠ k)]
  have h8 : List.range 8 = [0, 1, 2, 3, 4, 5, 6, 7] := rfl
  rw [h8]
  simp only [List.foldl_cons, List.foldl_nil]
  rw [getD_set_ne _ _ _ _ (by omega : (7 * 4 + 2 : Nat) ≠ k)]
  rw [getD_set_ne _ _ _ _ (by omega : (6 * 4 + 2 : Nat) ≠ k)]
  rw [getD_set_ne _ _ _ _ (by omega : (5 * 4 + 2 : Nat) ≠ k)]
  rw [getD_set_ne _ _ _ _ (by omega : (4 * 4 + 2 : Nat) ≠ k)]
  rw [getD_set_ne _ _ _ _ (by omega : (3 * 4 + 2 : Nat) ≠ k)]
  rw [getD_set_ne _ _ _ _ (by omega : (2 * 4 + 2 : Nat) ≠ k)]
  rw [getD_set_ne _ _ _ _ (by omega : (1 * 4 + 2 : Nat) ≠ k)]
  rw [getD_set_ne _ _ _ _ (by omega : (0 * 4 + 2 : Nat) ≠ k)]

/-- C10. `applyPatchwork`, `applyDCTSteganography` and `applyHistogramShifting`
modify only blue-channel samples: every sample at an index not congruent to
2 mod 4 (red, green, alpha) is unchanged after encoding. -/
theorem encoders_touch_only_blue (data : List Nat) (bits : List Bool) (w h k : Nat)
    (hk : k % 4 ≠ 2) :
    (applyPatchwork data bits w h).getD k 0 = data.getD k 0 ∧
    (applyDCTSteganography data bits w h).getD k 0 = data.getD k 0 ∧
    (applyHistogramShifting data bits).getD k 0 = data.getD k 0 := by
  refine ⟨applyPatchworkGo_frame w h k hk bits 0 data, ?_, ?_⟩
  · unfold applyDCTSteganography
    apply dctEncodeGo_frame
    intro q hq i j
    omega
  · unfold applyHistogramShifting
    rw [hsMetadata_frame _ _ _ _ _ _ hk]
    rw [hsEmbed_frame _ _ _ hk _ _ _ (fun i hi => hsIndices_mem_mod hi)]
    exact hsShift_frame _ _ _ _ _ hk

/-- Witness for C10: the red sample at index 0 of a small buffer is unchanged
by all three encoders. -/
theorem encoders_touch_only_blue_witness :
    (0 % 4 ≠ 2) ∧
    ((applyPatchwork (List.replicate 16 9) [true] 2 2).getD 0 0 =
        (List.replicate 16 9 : List Nat).getD 0 0 ∧
      (applyDCTSteganography (List.replicate 16 9) [true] 2 2).getD 0 0 =
        (List.replicate 16 9 : List Nat).getD 0 0 ∧
      (applyHistogramShifting (List.replicate 16 9) [true]).getD 0 0 =
        (List.replicate 16 9 : List Nat).getD 0 0) :=
  ⟨by decide, encoders_touch_only_blue (List.replicate 16 9) [true] 2 2 0 (by decide)⟩

-- ## C4: the DCT signature check

theorem getD_replicate_zero (n i : Nat) : (List.replicate n (0 : Nat)).getD i 0 = 0 := by
  induction n generalizing i with
  | zero => rfl
  | succ n ih =>
    match i with
    | 0 => rfl
    | i + 1 => simpa [List.replicate_succ] using ih i

theorem extractBlock_zero (n w x y c : Nat) :
    extractBlock (List.replicate n 0) w x y c = fun _ _ => (0 : ℝ) := by
  funext i j
  unfold extractBlock
  rw [getD_replicate_zero]
  simp

theorem applyDCT_zero : applyDCT (fun _ _ => (0 : ℝ)) = fun _ _ => (0 : ℝ) := by
  funext u v
  unfold applyDCT
  simp

theorem coeffBit_zero : coeffBit 0 = false := by
  unfold coeffBit jsRound
  norm_num

theorem bitsToNat_all_false (l : List Bool) (h : ∀ b ∈ l, b = false) : bitsToNat l = 0 := by
  induction l with
  | nil => rfl
  | cons b bs ih =>
    have hb := h b (List.mem_cons_self b bs)
    subst hb
    unfold bitsToNat at *
    simpa using ih (fun c hc => h c (List.mem_cons_of_mem _ hc))

theorem extractDCTgo_zero_len (data : List Nat) (w : Nat) (coords : List (Nat × Nat)) :
    extractDCTgo data w 0 coords [] = [] := by
  cases coords with
  | nil => rfl
  | cons q qs =>
    obtain ⟨bx, bY⟩ := q
    rw [extractDCTgo]
    simp

/-- C4 (amended). `extractDCTSteganography` reads block (0,0) first and fails
with `signatureMismatch` exactly when the rounded DC coefficient of that
block is odd; no other error is possible. -/
theorem extractDCT_signature (data : List Nat) (w h : Nat) :
    extractDCTSteganography data w h = .error .signatureMismatch ↔
      Int.tmod (jsRound (applyDCT (extractBlock data w 0 0 2) 0 0)) 2 ≠ 0 := by
  unfold extractDCTSteganography coeffBit
  simp only []
  split
  · rename_i hcb
    simp only [eq_self_iff_true, true_iff]
    intro hmod
    simp [hmod] at hcb
  · rename_i hcb
    simp only [Bool.not_eq_true] at hcb
    constructor
    · intro habs
      exact absurd habs (by simp)
    · intro hmod
      simp [hmod] at hcb

/-- C4 counterexample: on an all-zero 16×16 buffer the DC coefficient of
block (0,0) is 0 (even), so decode does not raise `signatureMismatch`; it
returns the empty bit string (declared length 0). -/
theorem extractDCT_allzero_no_mismatch :
    extractDCTSteganography (List.replicate 1024 0) 16 16 = .ok [] ∧
      extractDCTSteganography (List.replicate 1024 0) 16 16 ≠ .error .signatureMismatch := by
  have hblock : applyDCT (extractBlock (List.replicate 1024 0) 16 0 0 2) = fun _ _ => (0:ℝ) := by
    rw [extractBlock_zero, applyDCT_zero]
  have hok : extractDCTSteganography (List.replicate 1024 0) 16 16 = .ok [] := by
    unfold extractDCTSteganography
    rw [hblock]
    rw [if_neg (by rw [coeffBit_zero]; simp)]
    simp only []
    have hlen : bitsToNat ((List.finRange 16).map fun i =>
        coeffBit ((fun _ _ => (0:ℝ)) (lenBitPos i).1 (lenBitPos i).2)) = 0 := by
      apply bitsToNat_all_false
      intro b hb
      simp only [List.mem_map] at hb
      obtain ⟨i, -, rfl⟩ := hb
      exact coeffBit_zero
    rw [hlen, extractDCTgo_zero_len]
  refine ⟨hok, ?_⟩
  rw [hok]
  simp

-- ## C5: histogram length metadata

theorem hsShift_length (data : List Nat) (peak zeroPt : Nat) (sr : Bool) :
    (hsShift data peak zeroPt sr).length = data.length := by
  unfold hsShift
  have haux : ∀ (idxs : List Nat) (d : List Nat),
      (idxs.foldl
        (fun d i =>
          let v := d.getD (i + 2) 0
          if sr then (if v > peak ∧ v < zeroPt then d.set (i + 2) (v + 1) else d)
          else (if v > zeroPt ∧ v < peak then d.set (i + 2) (v - 1) else d))
        d).length = d.length := by
    intro idxs
    induction idxs with
    | nil => intro d; rfl
    | cons i is ih =>
      intro d
      rw [List.foldl_cons, ih]
      simp only []
      split
      · split <;> simp [List.length_set]
      · split <;> simp [List.length_set]
  exact haux _ data

theorem hsEmbed_length (peak : Nat) (sr : Bool) :
    ∀ (idxs : List Nat) (bits : List Bool) (d : List Nat),
    (hsEmbed peak sr idxs bits d).length = d.length := by
  intro idxs
  induction idxs with
  | nil => intro bits d; rfl
  | cons i is ih =>
    intro bits d
    match bits with
    | [] => rfl
    | b :: bs =>
      rw [hsEmbed]
      split
      · rw [ih]
        split <;> simp [List.length_set]
      · exact ih _ _

theorem hsMetadata_getD_46 (d : List Nat) (peak zeroPt : Nat) (sr : Bool) (bitLen : Nat)
    (hd : 47 ≤ d.length) :
    (hsMetadata d peak zeroPt sr bitLen).getD 46 0 = min 255 (bitLen / 8) := by
  unfold hsMetadata
  rw [getD_set_ne _ _ _ _ (by omega : (50 : Nat) ≠ 46)]
  apply getD_set_self
  have h8 : List.range 8 = [0, 1, 2, 3, 4, 5, 6, 7] := rfl
  rw [h8]
  simp [List.length_set]
  omega

theorem hsMetadata_getD_50 (d : List Nat) (peak zeroPt : Nat) (sr : Bool) (bitLen : Nat)
    (hd : 51 ≤ d.length) :
    (hsMetadata d peak zeroPt sr bitLen).getD 50 0 =
      (if bitLen / 8 > 255 then bitLen / 8 / 256 else 0) := by
  unfold hsMetadata
  apply getD_set_self
  have h8 : List.range 8 = [0, 1, 2, 3, 4, 5, 6, 7] := rfl
  rw [h8]
  simp [List.length_set]
  omega

theorem hsStored_eq_metadata (data : List Nat) (bits : List Bool) (hd : 51 ≤ data.length) :
    hsStoredBitLength (applyHistogramShifting data bits) =
      (min 255 (bits.length / 8) +
        (if bits.length / 8 > 255 then bits.length / 8 / 256 else 0) * 256) * 8 := by
  unfold hsStoredBitLength applyHistogramShifting
  simp only []
  have hlen : (hsEmbed (hsFindPeak (hsHistogram data)) (decide (hsFindZero (hsHistogram data)
      (hsFindPeak (hsHistogram data)) > hsFindPeak (hsHistogram data))) (hsIndices data.length)
      bits (hsShift data (hsFindPeak (hsHistogram data)) (hsFindZero (hsHistogram data)
      (hsFindPeak (hsHistogram data))) (decide (hsFindZero (hsHistogram data)
      (hsFindPeak (hsHistogram data)) > hsFindPeak (hsHistogram data))))).length = data.length := by
    rw [hsEmbed_length, hsShift_length]
  rw [hsMetadata_getD_46 _ _ _ _ _ (by omega), hsMetadata_getD_50 _ _ _ _ _ (by omega)]

/-- C5 (amended). When the embedded message (payload plus terminator) is at
most 255 bytes, the bit length reconstructed by the decoder from the stored
metadata, `(byte11 + byte12*256) * 8`, equals the bit length of the embedded
binary message. -/
theorem hsStoredBitLength_roundtrip (data payload : List Nat)
    (hcode : ∀ c ∈ payload, c < 256) (hlen : payload.length + 5 ≤ 255)
    (hd : 51 ≤ data.length) :
    hsStoredBitLength (applyHistogramShifting data (textToBinary (payload ++ terminator))) =
      (textToBinary (payload ++ terminator)).length := by
  have hterm : ∀ c ∈ payload ++ terminator, c < 256 := by
    intro c hc
    rcases List.mem_append.mp hc with h | h
    · exact hcode c h
    · simp [terminator] at h
      omega
  have hbits : (textToBinary (payload ++ terminator)).length = 8 * (payload.length + 5) := by
    rw [textToBinary_length _ hterm]
    simp [terminator]
  rw [hsStored_eq_metadata _ _ hd, hbits]
  have hdiv : 8 * (payload.length + 5) / 8 = payload.length + 5 :=
    Nat.mul_div_cancel_left _ (by omega)
  rw [hdiv]
  rw [Nat.min_eq_right (by omega)]
  rw [if_neg (by omega)]
  omega

/-- Witness for C5 at payload `"hi"` and a 52-sample zero buffer. -/
theorem hsStoredBitLength_roundtrip_witness :
    (∀ c ∈ [104, 105], c < 256) ∧ ([104, 105] : List Nat).length + 5 ≤ 255 ∧
    51 ≤ (List.replicate 52 0 : List Nat).length ∧
    hsStoredBitLength (applyHistogramShifting (List.replicate 52 0)
        (textToBinary ([104, 105] ++ terminator))) =
      (textToBinary ([104, 105] ++ terminator)).length :=
  ⟨by decide, by decide, by decide,
    hsStoredBitLength_roundtrip (List.replicate 52 0) [104, 105] (by decide) (by decide)
      (by decide)⟩

/-- C5 counterexample: a 251-character payload (256 bytes with the
terminator) stores `byte11 = min(255, 256) = 255` and `byte12 = 1`, so the
decoder reconstructs `(255 + 256) * 8 = 4088` bits, not the embedded 2048. -/
theorem hsStoredBitLength_overflow :
    hsStoredBitLength (applyHistogramShifting (List.replicate 52 0)
        (textToBinary (List.replicate 251 97 ++ terminator))) ≠
      (textToBinary (List.replicate 251 97 ++ terminator)).length := by
  have hterm : ∀ c ∈ (List.replicate 251 97 : List Nat) ++ terminator, c < 256 := by
    intro c hc
    rcases List.mem_append.mp hc with h | h
    · rw [List.eq_of_mem_replicate h]
      omega
    · simp [terminator] at h
      omega
  have hbits : (textToBinary ((List.replicate 251 97 : List Nat) ++ terminator)).length = 2048 := by
    rw [textToBinary_length _ hterm, List.length_append, List.length_replicate]
    norm_num [terminator]
  rw [hsStored_eq_metadata _ _ (by rw [List.length_replicate]; omega), hbits]
  norm_num

-- ## C2: LSB / improved-LSB round trip

theorem readBit0_setBit0 (v : Nat) (b : Bool) : readBit0 (setBit0 v b) = b := by
  cases b <;> simp [readBit0, setBit0, Nat.and_one_is_mod]

theorem readBit1_setBit1 (v : Nat) (b : Bool) : readBit1 (setBit1 v b) = b := by
  have h253 : v &&& 253 &&& 2 = 0 := by
    rw [Nat.and_assoc, (by rfl : (253 &&& 2 : Nat) = 0), Nat.and_zero]
  cases b <;> simp [readBit1, setBit1, Nat.and_distrib_right, h253]

theorem readBit2_setBit2 (v : Nat) (b : Bool) : readBit2 (setBit2 v b) = b := by
  have h251 : v &&& 251 &&& 4 = 0 := by
    rw [Nat.and_assoc, (by rfl : (251 &&& 4 : Nat) = 0), Nat.and_zero]
  cases b <;> simp [readBit2, setBit2, Nat.and_distrib_right, h251]

theorem applyLSB_length : ∀ (data : List Nat) (bits : List Bool),
    (applyLSB data bits).length = data.length := by
  intro data bits
  induction data, bits using applyLSB.induct <;> simp_all [applyLSB]

theorem applyImprovedLSB_length : ∀ (data : List Nat) (bits : List Bool),
    (applyImprovedLSB data bits).length = data.length := by
  intro data bits
  induction data, bits using applyImprovedLSB.induct <;> simp_all [applyImprovedLSB]

theorem lsbChannelBits_applyLSB : ∀ (data : List Nat) (bits : List Bool),
    data.length % 4 = 0 → bits.length ≤ 3 * (data.length / 4) →
    lsbChannelBits (applyLSB data bits) = bits ++ (lsbChannelBits data).drop bits.length := by
  intro data bits
  induction data, bits using applyLSB.induct with
  | case1 data => intro _ _; simp [applyLSB]
  | case2 b bs => intro _ hfit; simp at hfit
  | case3 r b0 tail => intro h4 _; simp at h4
  | case4 r g b0 => intro h4 _; simp at h4
  | case5 r g b0 b1 tail => intro h4 _; simp at h4
  | case6 r g b b0 => intro h4 _; simp at h4
  | case7 r g b b0 b1 => intro h4 _; simp at h4
  | case8 r g b b0 b1 b2 tail => intro h4 _; simp at h4
  | case9 r g b a rest b0 =>
    intro _ _
    simp [applyLSB, lsbChannelBits, readBit0_setBit0]
  | case10 r g b a rest b0 b1 =>
    intro _ _
    simp [applyLSB, lsbChannelBits, readBit0_setBit0]
  | case11 r g b a rest b0 b1 b2 bs ih =>
    intro h4 hfit
    have h4' : rest.length % 4 = 0 := by simp at h4; omega
    have hfit' : bs.length ≤ 3 * (rest.length / 4) := by
      simp at hfit
      omega
    simp [applyLSB, lsbChannelBits, readBit0_setBit0, ih h4' hfit']

theorem improvedChannelBits_applyImprovedLSB : ∀ (data : List Nat) (bits : List Bool),
    data.length % 4 = 0 → bits.length ≤ 3 * (data.length / 4) →
    improvedChannelBits (applyImprovedLSB data bits) =
      bits ++ (improvedChannelBits data).drop bits.length := by
  intro data bits
  induction data, bits using applyImprovedLSB.induct with
  | case1 data => intro _ _; simp [applyImprovedLSB]
  | case2 b bs => intro _ hfit; simp at hfit
  | case3 r b0 tail => intro h4 _; simp at h4
  | case4 r g b0 => intro h4 _; simp at h4
  | case5 r g b0 b1 tail => intro h4 _; simp at h4
  | case6 r g b b0 => intro h4 _; simp at h4
  | case7 r g b b0 b1 => intro h4 _; simp at h4
  | case8 r g b b0 b1 b2 tail => intro h4 _; simp at h4
  | case9 r g b a rest b0 =>
    intro _ _
    simp [applyImprovedLSB, improvedChannelBits, readBit1_setBit1]
  | case10 r g b a rest b0 b1 =>
    intro _ _
    simp [applyImprovedLSB, improvedChannelBits, readBit1_setBit1, readBit0_setBit0]
  | case11 r g b a rest b0 b1 b2 bs ih =>
    intro h4 hfit
    have h4' : rest.length % 4 = 0 := by simp at h4; omega
    have hfit' : bs.length ≤ 3 * (rest.length / 4) := by
      simp at hfit
      omega
    simp [applyImprovedLSB, improvedChannelBits, readBit1_setBit1, readBit0_setBit0,
      readBit2_setBit2, ih h4' hfit']

theorem extractCap_eq (len : Nat) (h4 : len % 4 = 0) :
    extractCap len = min (3 * (len / 4)) 100000 := by
  unfold extractCap
  omega

theorem extractLSB_applyLSB (data : List Nat) (bits : List Bool) (h4 : data.length % 4 = 0)
    (hfit : bits.length ≤ 3 * (data.length / 4)) (hcap : bits.length ≤ 100000) :
    ∃ rest, extractLSB (applyLSB data bits) = bits ++ rest := by
  unfold extractLSB
  rw [applyLSB_length data bits]
  rw [lsbChannelBits_applyLSB data bits h4 hfit]
  rw [extractCap_eq _ h4]
  have key := @List.take_append _ bits ((lsbChannelBits data).drop bits.length)
    (min (3 * (data.length / 4)) 100000 - bits.length)
  rw [(by omega : bits.length + (min (3 * (data.length / 4)) 100000 - bits.length) =
    min (3 * (data.length / 4)) 100000)] at key
  exact ⟨_, key⟩

theorem extractImprovedLSB_applyImprovedLSB (data : List Nat) (bits : List Bool)
    (h4 : data.length % 4 = 0) (hfit : bits.length ≤ 3 * (data.length / 4))
    (hcap : bits.length ≤ 100000) :
    ∃ rest, extractImprovedLSB (applyImprovedLSB data bits) = bits ++ rest := by
  unfold extractImprovedLSB
  rw [applyImprovedLSB_length data bits]
  rw [improvedChannelBits_applyImprovedLSB data bits h4 hfit]
  rw [extractCap_eq _ h4]
  have key := @List.take_append _ bits ((improvedChannelBits data).drop bits.length)
    (min (3 * (data.length / 4)) 100000 - bits.length)
  rw [(by omega : bits.length + (min (3 * (data.length / 4)) 100000 - bits.length) =
    min (3 * (data.length / 4)) 100000)] at key
  exact ⟨_, key⟩

theorem processDecodingBits_payload (payload : List Nat) (rest : List Bool)
    (hcode : ∀ c ∈ payload, c < 256)
    (hterm : ∀ i < payload.length, ¬occursAt terminator (payload ++ terminator) i) :
    processDecodingBits (textToBinary (payload ++ terminator) ++ rest) = payload := by
  have hcode' : ∀ c ∈ payload ++ terminator, c < 256 := by
    intro c hc
    rcases List.mem_append.mp hc with hmem | hmem
    · exact hcode c hmem
    · simp [terminator] at hmem
      omega
  have hfull := binaryToText_textToBinary_append (payload ++ terminator) rest hcode'
  set g := binaryToText rest with hg
  have hocc : occursAt terminator ((payload ++ terminator) ++ g) payload.length := by
    unfold occursAt
    rw [List.append_assoc, List.drop_left, List.take_left]
  have hmin : ∀ j < payload.length, ¬occursAt terminator ((payload ++ terminator) ++ g) j := by
    intro j hj hocc2
    apply hterm j hj
    unfold occursAt at hocc2 ⊢
    rw [List.drop_append_of_le_length (by simp; omega)] at hocc2
    rw [List.take_append_of_le_length (by simp [terminator]; omega)] at hocc2
    exact hocc2
  simp only [processDecodingBits, hfull]
  rw [jsIndexOf_first hocc hmin]
  simp only []
  rw [List.append_assoc]
  exact List.take_left payload (terminator ++ g)

/-- C2 (amended). For BitPlaneLSB and MultiPlaneLSB: for every pixel buffer
(length a multiple of 4) and payload whose characters are 8-bit, whose text
does not contain the terminator before its end, and whose bit length with the
terminator is at most `min(0.75 * bufferLength, 100000)`, decoding the
encoded buffer through the full pipeline returns exactly the payload. -/
theorem lsb_roundtrip (data payload : List Nat) (w h : Nat)
    (h4 : data.length % 4 = 0)
    (hcode : ∀ c ∈ payload, c < 256)
    (hterm : ∀ i < payload.length, ¬occursAt terminator (payload ++ terminator) i)
    (hcapacity : 4 * (textToBinary (payload ++ terminator)).length ≤ 3 * data.length)
    (hcap100k : (textToBinary (payload ++ terminator)).length ≤ 100000) :
    processDecoding (processEncoding data payload .lsb w h).1 .lsb w h = .ok payload ∧
    processDecoding (processEncoding data payload .lsbImproved w h).1 .lsbImproved w h =
      .ok payload := by
  have hguard : ¬(3 * data.length < 4 * (textToBinary (payload ++ terminator)).length) := by
    omega
  have hfit : (textToBinary (payload ++ terminator)).length ≤ 3 * (data.length / 4) := by
    omega
  constructor
  · have henc : (processEncoding data payload .lsb w h).1 =
        applyLSB data (textToBinary (payload ++ terminator)) := by
      simp only [processEncoding]
      rw [if_neg hguard]
      rfl
    rw [henc]
    obtain ⟨rest, hext⟩ := extractLSB_applyLSB data _ h4 hfit hcap100k
    show Except.ok (processDecodingBits (extractLSB
      (applyLSB data (textToBinary (payload ++ terminator))))) = _
    rw [hext, processDecodingBits_payload payload rest hcode hterm]
  · have henc : (processEncoding data payload .lsbImproved w h).1 =
        applyImprovedLSB data (textToBinary (payload ++ terminator)) := by
      simp only [processEncoding]
      rw [if_neg hguard]
      rfl
    rw [henc]
    obtain ⟨rest, hext⟩ := extractImprovedLSB_applyImprovedLSB data _ h4 hfit hcap100k
    show Except.ok (processDecodingBits (extractImprovedLSB
      (applyImprovedLSB data (textToBinary (payload ++ terminator))))) = _
    rw [hext, processDecodingBits_payload payload rest hcode hterm]

/-- Witness for C2: payload `"hi"` on a 76-sample buffer round-trips through
both LSB techniques. -/
theorem lsb_roundtrip_witness :
    ((List.replicate 76 0 : List Nat).length % 4 = 0) ∧
    (∀ c ∈ [104, 105], c < 256) ∧
    (∀ i < ([104, 105] : List Nat).length,
      ¬occursAt terminator ([104, 105] ++ terminator) i) ∧
    (4 * (textToBinary ([104, 105] ++ terminator)).length ≤
      3 * (List.replicate 76 0 : List Nat).length) ∧
    ((textToBinary ([104, 105] ++ terminator)).length ≤ 100000) ∧
    (processDecoding (processEncoding (List.replicate 76 0) [104, 105] .lsb 19 1).1
        .lsb 19 1 = .ok [104, 105] ∧
      processDecoding (processEncoding (List.replicate 76 0) [104, 105] .lsbImproved 19 1).1
        .lsbImproved 19 1 = .ok [104, 105]) :=
  ⟨by decide, by decide, by decide, by decide, by decide,
    lsb_roundtrip (List.replicate 76 0) [104, 105] 19 1 (by decide) (by decide) (by decide)
      (by decide) (by decide)⟩

/-- C2 counterexample: the payload `"§END§"` fits the claim's capacity bound
on a 108-sample buffer, but decode truncates at the payload's own terminator
occurrence and returns the empty string instead of the payload. -/
theorem lsb_roundtrip_counterexample :
    (¬((textToBinary (terminator ++ terminator)).length : ℚ) >
      ((List.replicate 108 0 : List Nat).length : ℚ) * (3 / 4)) ∧
    processDecoding (processEncoding (List.replicate 108 0) terminator .lsb 27 1).1
      .lsb 27 1 = .ok [] ∧
    ([] : List Nat) ≠ terminator := by
  refine ⟨?_, by decide, by decide⟩
  rw [capacity_bridge]
  decide

-- ## C3: the 8x8 DCT round trip over the reals

theorem sum_cos_eight (m : ℤ) (hm : ¬((16 : ℤ) ∣ m)) :
    ∑ u ∈ Finset.range 8, Real.cos ((u : ℝ) * ((m : ℝ) * Real.pi / 8)) =
      if (2 : ℤ) ∣ m then 0 else 1 := by
  set θ : ℝ := (m : ℝ) * Real.pi / 8 with hθ
  have hz : ∀ u : ℕ, Real.cos ((u : ℝ) * θ) = (Complex.exp ((θ : ℂ) * Complex.I) ^ u).re := by
    intro u
    rw [← Complex.exp_nat_mul]
    have harg : (u : ℂ) * ((θ : ℂ) * Complex.I) = (((u : ℝ) * θ : ℝ) : ℂ) * Complex.I := by
      push_cast
      ring
    rw [harg, Complex.exp_ofReal_mul_I_re]
  have hsum : ∑ u ∈ Finset.range 8, Real.cos ((u : ℝ) * θ) =
      (∑ u ∈ Finset.range 8, Complex.exp ((θ : ℂ) * Complex.I) ^ u).re := by
    rw [Complex.re_sum]
    exact Finset.sum_congr rfl (fun u _ => hz u)
  have hsixteen : ∀ n : ℤ, θ = (n : ℝ) * (2 * Real.pi) → False := by
    intro n hreal
    rw [hθ] at hreal
    have hpi : (m : ℝ) * Real.pi = 16 * ((n : ℝ) * Real.pi) := by linarith [hreal]
    have hpi' : (m : ℝ) * Real.pi = ((16 * n : ℤ) : ℝ) * Real.pi := by
      push_cast
      linarith [hpi]
    have hmn : (m : ℝ) = ((16 * n : ℤ) : ℝ) := mul_right_cancel₀ Real.pi_ne_zero hpi'
    have : m = 16 * n := by exact_mod_cast hmn
    exact hm ⟨n, this⟩
  have hz1 : Complex.exp ((θ : ℂ) * Complex.I) ≠ 1 := by
    rw [Ne, Complex.exp_eq_one_iff]
    rintro ⟨n, hn⟩
    have hn' : (θ : ℂ) * Complex.I = ((n : ℂ) * (2 * (Real.pi : ℂ))) * Complex.I := by
      rw [hn]
      ring
    have hθn := mul_right_cancel₀ Complex.I_ne_zero hn'
    have hreal : θ = (n : ℝ) * (2 * Real.pi) := by exact_mod_cast hθn
    exact hsixteen n hreal
  have hgeom := geom_sum_eq hz1 8
  have hz8 : Complex.exp ((θ : ℂ) * Complex.I) ^ 8 =
      Complex.exp ((m : ℂ) * (Real.pi : ℂ) * Complex.I) := by
    rw [← Complex.exp_nat_mul]
    congr 1
    rw [hθ]
    push_cast
    ring
  rcases Int.even_or_odd m with ⟨k, hk⟩ | ⟨k, hk⟩
  · have hdvd : (2 : ℤ) ∣ m := ⟨k, by omega⟩
    rw [if_pos hdvd, hsum, hgeom, hz8]
    have harg : ((m : ℂ) * (Real.pi : ℂ) * Complex.I) = (k : ℂ) * (2 * (Real.pi : ℂ) * Complex.I) := by
      have : (m : ℂ) = 2 * (k : ℂ) := by
        push_cast [hk]
        ring
      rw [this]
      ring
    rw [harg, Complex.exp_int_mul_two_pi_mul_I]
    simp
  · have hndvd : ¬((2 : ℤ) ∣ m) := by omega
    rw [if_neg hndvd, hsum, hgeom, hz8]
    have hexp : Complex.exp ((m : ℂ) * (Real.pi : ℂ) * Complex.I) = -1 := by
      have harg : ((m : ℂ) * (Real.pi : ℂ) * Complex.I) =
          (k : ℂ) * (2 * (Real.pi : ℂ) * Complex.I) + (Real.pi : ℂ) * Complex.I := by
        have : (m : ℂ) = 2 * (k : ℂ) + 1 := by
          push_cast [hk]
          ring
        rw [this]
        ring
      rw [harg, Complex.exp_add, Complex.exp_int_mul_two_pi_mul_I, one_mul, Complex.exp_pi_mul_I]
    rw [hexp]
    have hcos1 : Real.cos θ ≠ 1 := by
      rw [Ne, Real.cos_eq_one_iff]
      rintro ⟨n, hn⟩
      exact hsixteen n hn.symm
    have hre : (Complex.exp ((θ : ℂ) * Complex.I)).re = Real.cos θ :=
      Complex.exp_ofReal_mul_I_re θ
    have him : (Complex.exp ((θ : ℂ) * Complex.I)).im = Real.sin θ :=
      Complex.exp_ofReal_mul_I_im θ
    rw [Complex.div_re, Complex.normSq_apply]
    simp only [Complex.sub_re, Complex.sub_im, Complex.one_re, Complex.one_im, hre, him]
    norm_num
    have hdenom : (Real.cos θ - 1) * (Real.cos θ - 1) + Real.sin θ * Real.sin θ =
        2 - 2 * Real.cos θ := by
      nlinarith [Real.sin_sq_add_cos_sq θ]
    rw [hdenom]
    have h2 : 2 - 2 * Real.cos θ ≠ 0 := by
      intro habs
      apply hcos1
      linarith
    field_simp
    ring

theorem dctC_sq (u : Fin 8) : dctC u ^ 2 = if u = 0 then (1/2 : ℝ) else 1 := by
  unfold dctC
  split
  · rw [div_pow, one_pow, Real.sq_sqrt (by norm_num)]
  · norm_num

theorem weighted_sum_fin8 (g : Fin 8 → ℝ) :
    ∑ u : Fin 8, (if u = 0 then (1/2 : ℝ) else 1) * g u = (∑ u : Fin 8, g u) - (1/2) * g 0 := by
  have hpt : ∀ u : Fin 8, (if u = 0 then (1/2 : ℝ) else 1) * g u =
      g u - (if u = 0 then (1/2) * g u else 0) := by
    intro u
    split <;> ring
  rw [Finset.sum_congr rfl fun u _ => hpt u, Finset.sum_sub_distrib]
  congr 1
  rw [Finset.sum_ite_eq' Finset.univ (0 : Fin 8) (fun u => (1/2) * g u)]
  simp

theorem dct_orth (x xp : Fin 8) :
    ∑ u : Fin 8, dctC u ^ 2 * (dctCos x u * dctCos xp u) = if x = xp then 4 else 0 := by
  set p : ℤ := (x : ℤ) + (xp : ℤ) + 1 with hp
  set d : ℤ := (x : ℤ) - (xp : ℤ) with hd
  have hterm : ∀ u : Fin 8, dctCos x u * dctCos xp u =
      (Real.cos ((u : ℝ) * ((p : ℝ) * Real.pi / 8)) +
       Real.cos ((u : ℝ) * ((d : ℝ) * Real.pi / 8))) / 2 := by
    intro u
    unfold dctCos
    have hc1 : (u : ℝ) * ((p : ℝ) * Real.pi / 8) =
        (2 * (x : ℝ) + 1) * (u : ℝ) * Real.pi / 16 +
        (2 * (xp : ℝ) + 1) * (u : ℝ) * Real.pi / 16 := by
      rw [hp]
      push_cast
      ring
    have hc2 : (u : ℝ) * ((d : ℝ) * Real.pi / 8) =
        (2 * (x : ℝ) + 1) * (u : ℝ) * Real.pi / 16 -
        (2 * (xp : ℝ) + 1) * (u : ℝ) * Real.pi / 16 := by
      rw [hd]
      push_cast
      ring
    rw [hc1, hc2, Real.cos_add, Real.cos_sub]
    ring
  have hsplit : ∑ u : Fin 8, dctC u ^ 2 * (dctCos x u * dctCos xp u) =
      ((∑ u ∈ Finset.range 8, Real.cos ((u : ℝ) * ((p : ℝ) * Real.pi / 8))) +
       (∑ u ∈ Finset.range 8, Real.cos ((u : ℝ) * ((d : ℝ) * Real.pi / 8)))) / 2 - 1/2 := by
    have h1 : ∑ u : Fin 8, dctC u ^ 2 * (dctCos x u * dctCos xp u) =
        ∑ u : Fin 8, (if u = 0 then (1/2 : ℝ) else 1) *
          ((Real.cos ((u : ℝ) * ((p : ℝ) * Real.pi / 8)) +
            Real.cos ((u : ℝ) * ((d : ℝ) * Real.pi / 8))) / 2) := by
      refine Finset.sum_congr rfl fun u _ => ?_
      rw [dctC_sq, hterm]
    rw [h1, weighted_sum_fin8]
    have hg0 : ((Real.cos (((0 : Fin 8) : ℝ) * ((p : ℝ) * Real.pi / 8)) +
        Real.cos (((0 : Fin 8) : ℝ) * ((d : ℝ) * Real.pi / 8))) / 2) = 1 := by
      norm_num
    rw [hg0]
    have hsum2 : ∑ u : Fin 8, ((Real.cos ((u : ℝ) * ((p : ℝ) * Real.pi / 8)) +
        Real.cos ((u : ℝ) * ((d : ℝ) * Real.pi / 8))) / 2) =
        ((∑ u ∈ Finset.range 8, Real.cos ((u : ℝ) * ((p : ℝ) * Real.pi / 8))) +
         (∑ u ∈ Finset.range 8, Real.cos ((u : ℝ) * ((d : ℝ) * Real.pi / 8)))) / 2 := by
      rw [← Fin.sum_univ_eq_sum_range (fun n => Real.cos ((n : ℝ) * ((p : ℝ) * Real.pi / 8))) 8]
      rw [← Fin.sum_univ_eq_sum_range (fun n => Real.cos ((n : ℝ) * ((d : ℝ) * Real.pi / 8))) 8]
      rw [← Finset.sum_add_distrib, ← Finset.sum_div]
    rw [hsum2]
    ring
  rw [hsplit]
  have hxlt : (x : ℕ) < 8 := x.isLt
  have hxplt : (xp : ℕ) < 8 := xp.isLt
  have hp16 : ¬((16 : ℤ) ∣ p) := by
    rw [hp]
    omega
  by_cases hxx : x = xp
  · subst hxx
    have hd0 : d = 0 := by rw [hd]; ring
    have hpodd : ¬((2 : ℤ) ∣ p) := by
      rw [hp]
      omega
    rw [sum_cos_eight p hp16, if_neg hpodd]
    have hcosd : ∑ u ∈ Finset.range 8, Real.cos ((u : ℝ) * ((d : ℝ) * Real.pi / 8)) = 8 := by
      rw [hd0]
      norm_num
    rw [hcosd, if_pos rfl]
    norm_num
  · have hdne : d ≠ 0 := by
      rw [hd]
      intro habs
      apply hxx
      have : (x : ℤ) = (xp : ℤ) := by omega
      exact Fin.ext (by exact_mod_cast this)
    have hd16 : ¬((16 : ℤ) ∣ d) := by
      rw [hd] at hdne ⊢
      omega
    rw [sum_cos_eight p hp16, sum_cos_eight d hd16, if_neg hxx]
    have hparity : p + d = 2 * (x : ℤ) + 1 := by
      rw [hp, hd]
      ring
    rcases Int.even_or_odd d with ⟨k, hk⟩ | ⟨k, hk⟩
    · have h2d : (2 : ℤ) ∣ d := ⟨k, by omega⟩
      have h2p : ¬((2 : ℤ) ∣ p) := by omega
      rw [if_pos h2d, if_neg h2p]
      norm_num
    · have h2d : ¬((2 : ℤ) ∣ d) := by omega
      have h2p : (2 : ℤ) ∣ p := by omega
      rw [if_neg h2d, if_pos h2p]
      norm_num

theorem inv_dct_pointwise (B : DBlock) (x y : Fin 8) :
    applyInverseDCT (applyDCT B) x y = B x y := by
  unfold applyInverseDCT applyDCT
  have hterm : ∀ u v : Fin 8,
      dctC u * dctC v *
        ((1/4 : ℝ) * dctC u * dctC v *
          ∑ xp : Fin 8, ∑ yp : Fin 8, B xp yp * dctCos xp u * dctCos yp v) *
        dctCos x u * dctCos y v
      = ∑ xp : Fin 8, ∑ yp : Fin 8, (1/4 : ℝ) * B xp yp *
          (dctC u ^ 2 * (dctCos x u * dctCos xp u)) *
          (dctC v ^ 2 * (dctCos y v * dctCos yp v)) := by
    intro u v
    have hpull : dctC u * dctC v *
        ((1/4 : ℝ) * dctC u * dctC v *
          ∑ xp : Fin 8, ∑ yp : Fin 8, B xp yp * dctCos xp u * dctCos yp v) *
        dctCos x u * dctCos y v
      = ((1/4 : ℝ) * (dctC u ^ 2) * (dctC v ^ 2) * dctCos x u * dctCos y v) *
          ∑ xp : Fin 8, ∑ yp : Fin 8, B xp yp * dctCos xp u * dctCos yp v := by
      ring
    rw [hpull, Finset.mul_sum]
    refine Finset.sum_congr rfl fun xp _ => ?_
    rw [Finset.mul_sum]
    refine Finset.sum_congr rfl fun yp _ => ?_
    ring
  rw [Finset.sum_congr rfl fun u (_ : u ∈ Finset.univ) =>
    Finset.sum_congr rfl fun v (_ : v ∈ Finset.univ) => hterm u v]
  have hswap : ∑ u : Fin 8, ∑ v : Fin 8, ∑ xp : Fin 8, ∑ yp : Fin 8, (1/4 : ℝ) * B xp yp *
      (dctC u ^ 2 * (dctCos x u * dctCos xp u)) * (dctC v ^ 2 * (dctCos y v * dctCos yp v))
    = ∑ xp : Fin 8, ∑ yp : Fin 8, ∑ u : Fin 8, ∑ v : Fin 8, (1/4 : ℝ) * B xp yp *
      (dctC u ^ 2 * (dctCos x u * dctCos xp u)) * (dctC v ^ 2 * (dctCos y v * dctCos yp v)) := by
    calc ∑ u : Fin 8, ∑ v : Fin 8, ∑ xp : Fin 8, ∑ yp : Fin 8, (1/4 : ℝ) * B xp yp *
          (dctC u ^ 2 * (dctCos x u * dctCos xp u)) * (dctC v ^ 2 * (dctCos y v * dctCos yp v))
        = ∑ u : Fin 8, ∑ xp : Fin 8, ∑ v : Fin 8, ∑ yp : Fin 8, (1/4 : ℝ) * B xp yp *
          (dctC u ^ 2 * (dctCos x u * dctCos xp u)) * (dctC v ^ 2 * (dctCos y v * dctCos yp v)) := by
          exact Finset.sum_congr rfl fun u _ => Finset.sum_comm
      _ = ∑ xp : Fin 8, ∑ u : Fin 8, ∑ v : Fin 8, ∑ yp : Fin 8, (1/4 : ℝ) * B xp yp *
          (dctC u ^ 2 * (dctCos x u * dctCos xp u)) * (dctC v ^ 2 * (dctCos y v * dctCos yp v)) := by
          exact Finset.sum_comm
      _ = ∑ xp : Fin 8, ∑ u : Fin 8, ∑ yp : Fin 8, ∑ v : Fin 8, (1/4 : ℝ) * B xp yp *
          (dctC u ^ 2 * (dctCos x u * dctCos xp u)) * (dctC v ^ 2 * (dctCos y v * dctCos yp v)) := by
          exact Finset.sum_congr rfl fun xp _ => Finset.sum_congr rfl fun u _ =>
            Finset.sum_comm
      _ = ∑ xp : Fin 8, ∑ yp : Fin 8, ∑ u : Fin 8, ∑ v : Fin 8, (1/4 : ℝ) * B xp yp *
          (dctC u ^ 2 * (dctCos x u * dctCos xp u)) * (dctC v ^ 2 * (dctCos y v * dctCos yp v)) := by
          exact Finset.sum_congr rfl fun xp _ => Finset.sum_comm
  rw [hswap]
  have hfact : ∀ xp yp : Fin 8, ∑ u : Fin 8, ∑ v : Fin 8, (1/4 : ℝ) * B xp yp *
      (dctC u ^ 2 * (dctCos x u * dctCos xp u)) * (dctC v ^ 2 * (dctCos y v * dctCos yp v))
    = (1/4 : ℝ) * B xp yp * (if x = xp then (4:ℝ) else 0) * (if y = yp then (4:ℝ) else 0) := by
    intro xp yp
    have h1 : ∀ u : Fin 8, ∑ v : Fin 8, (1/4 : ℝ) * B xp yp *
        (dctC u ^ 2 * (dctCos x u * dctCos xp u)) * (dctC v ^ 2 * (dctCos y v * dctCos yp v))
      = ((1/4 : ℝ) * B xp yp * (dctC u ^ 2 * (dctCos x u * dctCos xp u))) *
          ∑ v : Fin 8, dctC v ^ 2 * (dctCos y v * dctCos yp v) := by
      intro u
      rw [Finset.mul_sum]
    rw [Finset.sum_congr rfl fun u _ => h1 u, ← Finset.sum_mul]
    rw [← Finset.mul_sum, dct_orth x xp, dct_orth y yp]
    try ring
  rw [Finset.sum_congr rfl fun xp (_ : xp ∈ Finset.univ) =>
    Finset.sum_congr rfl fun yp (_ : yp ∈ Finset.univ) => hfact xp yp]
  have hpoint : ∀ xp yp : Fin 8, (1/4 : ℝ) * B xp yp * (if x = xp then (4:ℝ) else 0) *
      (if y = yp then (4:ℝ) else 0)
    = if x = xp then (if y = yp then 4 * B xp yp else 0) else 0 := by
    intro xp yp
    by_cases h1 : x = xp <;> by_cases h2 : y = yp <;> simp [h1, h2] <;> ring
  rw [Finset.sum_congr rfl fun xp (_ : xp ∈ Finset.univ) =>
    Finset.sum_congr rfl fun yp (_ : yp ∈ Finset.univ) => hpoint xp yp]
  have hrow : ∀ xp : Fin 8,
      (∑ yp : Fin 8, if x = xp then (if y = yp then 4 * B xp yp else 0) else 0)
      = if x = xp then 4 * B xp y else 0 := by
    intro xp
    by_cases hx : x = xp
    · simp only [if_pos hx]
      rw [Finset.sum_ite_eq Finset.univ y (fun yp => 4 * B xp yp)]
      simp
    · simp [hx]
  rw [Finset.sum_congr rfl fun xp (_ : xp ∈ Finset.univ) => hrow xp]
  rw [Finset.sum_ite_eq Finset.univ x (fun xp => 4 * B xp y)]
  simp

/-- C3. For every 8×8 block of real values in [0, 255], the inverse DCT of
the forward DCT returns the block within the claimed tolerance: in the
exact-real model the reconstruction is exact, so each entry differs by less
than 1e-6. -/
theorem dct_roundtrip (B : DBlock) (hrange : ∀ i j : Fin 8, 0 ≤ B i j ∧ B i j ≤ 255)
    (x y : Fin 8) :
    |applyInverseDCT (applyDCT B) x y - B x y| < 1 / 1000000 := by
  rw [inv_dct_pointwise]
  norm_num

/-- Witness for C3 at the constant zero block. -/
theorem dct_roundtrip_witness :
    (∀ i j : Fin 8, 0 ≤ (fun _ _ => (0:ℝ)) i j ∧ (fun _ _ => (0:ℝ)) i j ≤ 255) ∧
    |applyInverseDCT (applyDCT (fun _ _ => (0:ℝ))) 0 0 - (fun _ _ => (0:ℝ)) 0 0| <
      1 / 1000000 :=
  ⟨fun i j => ⟨le_refl 0, by norm_num⟩,
    dct_roundtrip (fun _ _ => (0:ℝ)) (fun i j => ⟨le_refl 0, by norm_num⟩) 0 0⟩
